import Mathlib

/-!
Shallow embedding of `tbeti_parser.py` (class `TbetiTEIParser`), a TEI XML
parser for the Ṭbetis sulta maṭiane prosopographical register, together with
proofs about its extraction, classification and normalisation routines.

Text is modelled as `List Char` (`GStr`).  Python dictionaries with
incrementally added keys are modelled as structures with `Option` fields.
Python regular-expression scans are modelled by executable scanners that
reproduce the leftmost, greedy-with-backtracking, non-overlapping semantics
of `re.findall` / `re.finditer` / `re.search` for the concrete patterns used
by the source.  Fallible code (the `try`/`except` blocks) is modelled with
`Except` / `Option`.
-/

/-- Strings of the source program, modelled as lists of characters. -/
abbrev GStr := List Char

/-- Characters of the Georgian Mkhedruli block matched by `[Ⴀ-ჿ]`. -/
def isGeo (c : Char) : Bool := 0x10A0 ≤ c.toNat && c.toNat ≤ 0x10FF

/-- Whitespace as matched by the `\s` class and stripped by `str.strip`. -/
def isWs (c : Char) : Bool :=
  c = ' ' || c = '\t' || c = '\n' || c = '\x0d' || c = '\x0b' || c = '\x0c'

/-- ASCII decimal digits, the relevant case of `str.isdigit`. -/
def isDigitCh (c : Char) : Bool := '0' ≤ c && c ≤ '9'

/-- Lower-casing of ASCII letters, the relevant case of `str.lower`. -/
def asciiLower (c : Char) : Char :=
  if 'A' ≤ c && c ≤ 'Z' then Char.ofNat (c.toNat + 32) else c

/-- The patronymic suffix list shared by `is_patronymic` and
`is_actual_place` (lines 238-242 and 270-274 of the source, identical). -/
def patronymic_endings : List GStr :=
  [("შვილი").data, ("სძე").data, ("იძე").data, ("ძე").data,
   ("ისშვილი").data, ("ანისძე").data,
   ("ეთ").data, ("ეთი").data, ("აეთ").data, ("იეთ").data, ("უეთ").data,
   ("ანთ").data, ("ინთ").data]

/-- Surname suffixes rejected by `is_actual_place` (line 249). -/
def surname_endings : List GStr := [("აძე").data, ("ავაძე").data, ("ელი").data]

/-- The curated allow-list `known_places` of `is_actual_place`
(lines 255-259). -/
def known_places : List GStr :=
  [("მცხეთა").data, ("თბილისი").data, ("ქუთაისი").data, ("ბათუმი").data,
   ("ხანი").data, ("სვანეთი").data, ("იმერეთი").data, ("კახეთი").data,
   ("სამეგრელო").data, ("გურია").data, ("აჭარა").data, ("ტაო").data,
   ("კლარჯეთი").data, ("ტბეთი").data, ("ოშკი").data, ("ხახული").data]

/-- `is_patronymic` (lines 268-275 and the identical re-definition at
317-324): suffix test against `patronymic_endings`. -/
def is_patronymic (name : GStr) : Bool :=
  patronymic_endings.any (fun e => e.isSuffixOf name)

/-- `is_actual_place` (lines 235-266): patronymic suffixes reject first,
then surname suffixes, then membership in the curated allow-list; the
default is `False`. -/
def is_actual_place (name : GStr) : Bool :=
  if patronymic_endings.any (fun e => e.isSuffixOf name) then false
  else if surname_endings.any (fun e => e.isSuffixOf name) then false
  else decide (name ∈ known_places)

/-! ## Text normalizer: `clean_text` (lines 469-483) -/

/-- Markup-artifact characters removed by the first substitution
`re.sub` of `clean_text` (braces, square brackets, backslash). -/
def isArtifact (c : Char) : Bool :=
  c = '\x7b' || c = '\x7d' || c = '[' || c = ']' || c = '\\'

/-- Whitespace collapsing, `re.sub` of one or more whitespace characters by
a single space: each maximal whitespace run becomes one `' '`. -/
def collapseWs : GStr → GStr
  | [] => []
  | [c] => if isWs c then [' '] else [c]
  | a :: b :: rest =>
    if isWs a && isWs b then collapseWs (b :: rest)
    else (if isWs a then ' ' else a) :: collapseWs (b :: rest)

/-- Literal-pattern substitution, fuelled recursion: `re.sub(pat, repl, t)`
for a pattern with no metacharacters, replacing non-overlapping occurrences
left to right.  Fuel at least `t.length` makes the scan complete. -/
def replaceAllAux (pat repl : GStr) : Nat → GStr → GStr
  | 0, l => l
  | _ + 1, [] => []
  | fuel + 1, c :: cs =>
    if pat ≠ [] && pat.isPrefixOf (c :: cs) then
      repl ++ replaceAllAux pat repl fuel ((c :: cs).drop pat.length)
    else
      c :: replaceAllAux pat repl fuel cs

/-- `re.sub(pat, repl, t)` with a literal (metacharacter-free) pattern. -/
def replaceAll (pat repl t : GStr) : GStr := replaceAllAux pat repl t.length t

/-- Removal of trailing whitespace (the right half of `str.strip`). -/
def dropTrailingWs : GStr → GStr
  | [] => []
  | c :: cs =>
    let r := dropTrailingWs cs
    if r = [] && isWs c then [] else c :: r

/-- `str.strip()`: leading and trailing whitespace removed. -/
def stripWs (l : GStr) : GStr := dropTrailingWs (l.dropWhile isWs)

/-- First scribal abbreviation pattern of `clean_text`. -/
def abbrevPat1 : GStr := ("ს(ულს)ა").data
/-- Expansion of the first scribal abbreviation. -/
def abbrevRep1 : GStr := ("სულსა").data
/-- Second scribal abbreviation pattern of `clean_text`. -/
def abbrevPat2 : GStr := ("შ(ეუნდვე)ნ").data
/-- Expansion of the second scribal abbreviation. -/
def abbrevRep2 : GStr := ("შეუნდვენ").data
/-- Third scribal abbreviation pattern of `clean_text`. -/
def abbrevPat3 : GStr := ("ღ(მერთმა)ნ").data
/-- Expansion of the third scribal abbreviation. -/
def abbrevRep3 : GStr := ("ღმერთმან").data

/-- Scribal abbreviation patterns expanded by `clean_text`, with their
replacements, in the order the source applies them. -/
def abbrevTable : List (GStr × GStr) :=
  [(abbrevPat1, abbrevRep1), (abbrevPat2, abbrevRep2), (abbrevPat3, abbrevRep3)]

/-- `clean_text` (lines 469-483): on empty input return empty; otherwise
remove artifact characters, collapse whitespace runs to single spaces,
expand the three scribal abbreviations, and strip. -/
def clean_text (text : GStr) : GStr :=
  if text = [] then []
  else
    let t1 := text.filter (fun c => !isArtifact c)
    let t2 := collapseWs t1
    let t3 := abbrevTable.foldl (fun t pr => replaceAll pr.1 pr.2 t) t2
    stripWs t3

/-- Null-tolerant entry point of the normalizer: Python's
`if not text: return ''` also covers a `None` argument. -/
def clean_text_opt : Option GStr → GStr
  | none => []
  | some t => clean_text t

/-! ## Regular-expression scanners

Executable models of the concrete regex scans used by the extractors, with
`re`'s leftmost, greedy-with-backtracking, non-overlapping semantics. -/

/-- `re.findall` of one or more Georgian characters: the maximal runs of
Georgian script in a text, in order. -/
def georgianRunsAux : Nat → GStr → List GStr
  | 0, _ => []
  | _ + 1, [] => []
  | fuel + 1, c :: cs =>
    if isGeo c then
      ((c :: cs).takeWhile isGeo) :: georgianRunsAux fuel (cs.dropWhile isGeo)
    else
      georgianRunsAux fuel cs

/-- Maximal Georgian-script runs of a text (see `georgianRunsAux`). -/
def georgianRuns (t : GStr) : List GStr := georgianRunsAux t.length t

/-- One match attempt of a kinship pattern (a greedy Georgian-run group,
optional whitespace, then the literal kinship word `kw`) whose group ends
`g` characters into the suffix `t`; `g` descends, modelling the greedy
backtracking of the group.  Returns the captured group and the rest of the
text after the whole match. -/
def kinshipG (kw t : GStr) : Nat → Option (GStr × GStr)
  | 0 => none
  | g + 1 =>
    let s' := (t.drop (g + 1)).dropWhile isWs
    if kw.isPrefixOf s' then some (t.take (g + 1), s'.drop kw.length)
    else kinshipG kw t g

/-- `re.finditer` for a kinship pattern: scan left to right, at each
Georgian position try the greedy group against the maximal run from there,
and continue after a successful match (non-overlapping). -/
def findKinshipAux (kw : GStr) : Nat → GStr → List GStr
  | 0, _ => []
  | _ + 1, [] => []
  | fuel + 1, c :: cs =>
    if isGeo c then
      match kinshipG kw (c :: cs) ((c :: cs).takeWhile isGeo).length with
      | some (cap, rest) => cap :: findKinshipAux kw fuel rest
      | none => findKinshipAux kw fuel cs
    else
      findKinshipAux kw fuel cs

/-- All captures of the kinship pattern for the word `kw` in `t`. -/
def findKinship (kw t : GStr) : List GStr := findKinshipAux kw t.length t

/-- One match attempt of a suffix-alternation pattern (a greedy Georgian
group followed by one of the suffix alternatives `alts`, the capture
including the suffix), with the group length `k` descending greedily.
Returns the capture and the rest of the text after the match. -/
def suffixG (alts : List GStr) (t : GStr) : Nat → Option (GStr × GStr)
  | 0 => none
  | k + 1 =>
    match alts.find? (fun alt => alt.isPrefixOf (t.drop (k + 1))) with
    | some alt => some (t.take (k + 1) ++ alt, t.drop (k + 1 + alt.length))
    | none => suffixG alts t k

/-- `re.findall` for a pattern of Georgian run + suffix alternatives. -/
def findSuffixAux (alts : List GStr) : Nat → GStr → List GStr
  | 0, _ => []
  | _ + 1, [] => []
  | fuel + 1, c :: cs =>
    if isGeo c then
      match suffixG alts (c :: cs) ((c :: cs).takeWhile isGeo).length with
      | some (cap, rest) => cap :: findSuffixAux alts fuel rest
      | none => findSuffixAux alts fuel cs
    else
      findSuffixAux alts fuel cs

/-- All captures of the Georgian-run + suffix pattern in `t`. -/
def findSuffix (alts : List GStr) (t : GStr) : List GStr :=
  findSuffixAux alts t.length t

/-- Match attempt of the literal `placeName` markup pattern at the head of
`t`: the opening tag name, any attribute characters up to the closing
angle bracket, a captured Georgian run, then the literal closing tag. -/
def placeTagAt (t : GStr) : Option (GStr × GStr) :=
  if ("<placeName").data.isPrefixOf t then
    let r1 := t.drop ("<placeName").data.length
    let r2 := r1.dropWhile (fun c => c ≠ '>')
    match r2 with
    | '>' :: r3 =>
      let name := r3.takeWhile isGeo
      if name ≠ [] && ("</placeName>").data.isPrefixOf (r3.drop name.length) then
        some (name, (r3.drop name.length).drop ("</placeName>").data.length)
      else none
    | _ => none
  else none

/-- `re.findall` for the embedded `placeName` markup pattern. -/
def findPlaceTagsAux : Nat → GStr → List GStr
  | 0, _ => []
  | _ + 1, [] => []
  | fuel + 1, c :: cs =>
    match placeTagAt (c :: cs) with
    | some (cap, rest) => cap :: findPlaceTagsAux fuel rest
    | none => findPlaceTagsAux fuel cs

/-- All places captured from literal `placeName` markup in `t`. -/
def findPlaceTags (t : GStr) : List GStr := findPlaceTagsAux t.length t

/-- Roman-numeral letters of the folio pattern character class. -/
def isRoman (c : Char) : Bool :=
  c = 'I' || c = 'V' || c = 'X' || c = 'i' || c = 'v' || c = 'x'

/-- Match attempt of the folio pattern (folio abbreviation, optional
whitespace, roman-numeral run with optional leaf-side letter) at the head
of the text; returns the capture. -/
def folioAt : GStr → Option GStr
  | 'f' :: '.' :: rest =>
    let r := rest.dropWhile isWs
    let rom := r.takeWhile isRoman
    if rom = [] then none
    else
      match r.drop rom.length with
      | c :: _ => if c = 'r' || c = 'v' then some (rom ++ [c]) else some rom
      | [] => some rom
  | _ => none

/-- `re.search` for the folio pattern: the first match in the text. -/
def searchFolioAux : Nat → GStr → Option GStr
  | 0, _ => none
  | _ + 1, [] => none
  | fuel + 1, c :: cs =>
    match folioAt (c :: cs) with
    | some cap => some cap
    | none => searchFolioAux fuel cs

/-- First folio reference in `t`, if any. -/
def searchFolio (t : GStr) : Option GStr := searchFolioAux t.length t

/-- Match attempt of the line pattern (line abbreviation, optional
whitespace, digits optionally hyphen-joined with more digits). -/
def lineAt : GStr → Option GStr
  | 'l' :: '.' :: rest =>
    let r := rest.dropWhile isWs
    let ds := r.takeWhile isDigitCh
    if ds = [] then none
    else
      match r.drop ds.length with
      | '-' :: r2 =>
        let ds2 := r2.takeWhile isDigitCh
        if ds2 = [] then some ds else some (ds ++ '-' :: ds2)
      | _ => some ds
  | _ => none

/-- `re.search` for the line pattern: the first match in the text. -/
def searchLineAux : Nat → GStr → Option GStr
  | 0, _ => none
  | _ + 1, [] => none
  | fuel + 1, c :: cs =>
    match lineAt (c :: cs) with
    | some cap => some cap
    | none => searchLineAux fuel cs

/-- First line reference in `t`, if any. -/
def searchLine (t : GStr) : Option GStr := searchLineAux t.length t

/-! ## Data model -/

/-- A person record: the dictionaries built by `parse_persons` and the
free-text extractors, with incrementally added keys as `Option` fields. -/
structure Person where
  name : Option GStr := none
  type : Option GStr := none
  occupation : Option GStr := none
  surname : Option GStr := none
  patronymic : Option GStr := none
  place : Option GStr := none
  relationship : Option GStr := none
deriving DecidableEq

/-- Manuscript reference record (`entry['manuscript']`). -/
structure Manuscript where
  page : Option GStr := none
  folio : Option GStr := none
  line : Option GStr := none
deriving DecidableEq

/-- An entry record as assembled by `parse_entry_element` and
`parse_entry_from_text`. -/
structure Entry where
  entryId : GStr
  entryNumber : Nat
  mainPerson : Person := {}
  familyMembers : List Person := []
  manuscript : Manuscript := {}
  edition : List (GStr × GStr) := []
  dates : List (GStr × GStr) := []
  notes : GStr := []
  places : List GStr := []
deriving DecidableEq

/-- Python truthiness of `d.get(k)` for a string-valued key: the key is
present and its value non-empty. -/
def optTruthy : Option GStr → Bool
  | none => false
  | some s => s ≠ []

/-- An XML element as seen through `xml.etree.ElementTree`: tag, attribute
list, text before the first child, child elements, and the tail text
following the element's own closing tag. -/
inductive XmlElem where
  | mk (tag : GStr) (attrs : List (GStr × GStr)) (text : GStr)
       (children : List XmlElem) (tail : GStr)

/-- Tag accessor. -/
def XmlElem.tag : XmlElem → GStr | .mk t _ _ _ _ => t
/-- Attribute-list accessor. -/
def XmlElem.attrs : XmlElem → List (GStr × GStr) | .mk _ a _ _ _ => a
/-- Text accessor (`elem.text or ''`). -/
def XmlElem.text : XmlElem → GStr | .mk _ _ tx _ _ => tx
/-- Children accessor. -/
def XmlElem.children : XmlElem → List XmlElem | .mk _ _ _ cs _ => cs
/-- Tail accessor (`elem.tail or ''`). -/
def XmlElem.tail : XmlElem → GStr | .mk _ _ _ _ tl => tl

/-- `elem.get(k)`: first attribute with the given name. -/
def XmlElem.attr (e : XmlElem) (k : GStr) : Option GStr :=
  (e.attrs.find? (fun p => p.1 == k)).map (fun p => p.2)

mutual
/-- All proper descendants of an element in document order, the search
space of `elem.findall('.//tag')`. -/
def XmlElem.descendants : XmlElem → List XmlElem
  | .mk _ _ _ cs _ => descList cs
/-- Preorder traversal of a forest of elements. -/
def descList : List XmlElem → List XmlElem
  | [] => []
  | c :: cs => c :: (c.descendants ++ descList cs)
end

/-- `elem.findall('.//tag')`: descendant elements with the given tag, in
document order. -/
def findAllTag (e : XmlElem) (tag : GStr) : List XmlElem :=
  e.descendants.filter (fun d => d.tag == tag)

mutual
/-- Flattened text of an element: its text followed by each child's
flattened text and tail. -/
def XmlElem.textContent : XmlElem → GStr
  | .mk _ _ tx cs _ => tx ++ textChildren cs
/-- Flattened text of a forest, with tails. -/
def textChildren : List XmlElem → GStr
  | [] => []
  | c :: cs => c.textContent ++ c.tail ++ textChildren cs
end

/-- `ET.tostring(elem, method='text')`: flattened text plus the element's
own tail. -/
def tostringText (e : XmlElem) : GStr := e.textContent ++ e.tail

/-! ## Shared helpers of both extraction paths -/

/-- Substring containment, Python's `pat in text` on strings; also the
occurrence predicate used to reason about `re.sub`. -/
def occursIn (pat : GStr) : GStr → Bool
  | [] => pat.isEmpty
  | c :: cs => pat.isPrefixOf (c :: cs) || occursIn pat cs

/-- `determine_person_type` (lines 443-455): first matching role keyword in
the lower-cased text, in fixed priority order, defaulting to `main`. -/
def determine_person_type (text : GStr) : GStr :=
  let tl := text.map asciiLower
  if occursIn ("მახარებელ").data tl then ("evangelist").data
  else if occursIn ("ეპისკოპოს").data tl then ("bishop").data
  else if occursIn ("მღვდელ").data tl then ("priest").data
  else if occursIn ("ბერ").data tl then ("monk").data
  else ("main").data

/-- `get_occupation_from_type` (lines 457-467): the fixed occupation map,
sending the six known types to themselves and everything else to `''`. -/
def get_occupation_from_type (person_type : GStr) : GStr :=
  if person_type ∈ [("evangelist").data, ("bishop").data, ("priest").data,
      ("monk").data, ("deacon").data, ("ktitor").data]
  then person_type else []

/-- Decimal digits of a natural number (`str(n)` for the relevant inputs). -/
def natDigitsAux : Nat → Nat → GStr
  | 0, _ => []
  | fuel + 1, n =>
    if n < 10 then [Char.ofNat (48 + n)]
    else natDigitsAux fuel (n / 10) ++ [Char.ofNat (48 + n % 10)]

/-- Decimal representation of a natural number. -/
def natDigits (n : Nat) : GStr := natDigitsAux (n + 1) n

/-- `s.isdigit()` for the relevant (ASCII) inputs. -/
def isDigits (s : GStr) : Bool := s ≠ [] && s.all isDigitCh

/-- `int(s)` on a digit string. -/
def natOfDigits (s : GStr) : Nat := s.foldl (fun a c => a * 10 + (c.toNat - 48)) 0

/-- `f'{n:03d}'`: decimal representation zero-padded to three digits. -/
def zeroPad3 (n : Nat) : GStr :=
  let d := natDigits n
  List.replicate (3 - d.length) '0' ++ d

/-! ## Free-text extractors (the fallback path) -/

/-- The ordered patronymic pattern list of `extract_patronymic_from_text`
(lines 216-226), as suffix-alternative groups. -/
def patroPatternAlts : List (List GStr) :=
  [[("შვილი").data, ("სძე").data, ("იძე").data, ("ძე").data],
   [("ისშვილი").data], [("ანისძე").data],
   [("ეთ").data], [("აეთ").data], [("იეთ").data], [("უეთ").data],
   [("ანთ").data], [("ინთ").data]]

/-- `extract_patronymic_from_text` (lines 213-233): first capture over the
ordered pattern list that differs from the main name, else `''`. -/
def extract_patronymic_from_text (text main_name : GStr) : GStr :=
  match patroPatternAlts.findSome?
      (fun alts => (findSuffix alts text).find? (fun m => m != main_name)) with
  | some m => m
  | none => []

/-- The ordered surname pattern list of `extract_surname_from_text`
(lines 329-333). -/
def surnamePatternAlts : List (List GStr) :=
  [[("ელი").data], [("აძე").data], [("ავაძე").data]]

/-- `extract_surname_from_text` (lines 326-342): first capture that is
neither the main name nor the patronymic and not itself a patronymic. -/
def extract_surname_from_text (text main_name patronymic : GStr) : GStr :=
  match surnamePatternAlts.findSome? (fun alts => (findSuffix alts text).find?
      (fun m => m != main_name && m != patronymic && !is_patronymic m)) with
  | some m => m
  | none => []

/-- `extract_main_person_from_text` (lines 194-211): first Georgian run as
the main name, then role, occupation, patronymic and surname. -/
def extract_main_person_from_text (text : GStr) (entry : Entry) : Entry :=
  match georgianRuns text with
  | [] => entry
  | n :: _ =>
    let ty := determine_person_type text
    let p0 := { entry.mainPerson with
                  name := some n, type := some ty,
                  occupation := some (get_occupation_from_type ty) }
    let patr := extract_patronymic_from_text text n
    let p1 := if patr ≠ [] then { p0 with patronymic := some patr } else p0
    let sur := extract_surname_from_text text n patr
    let p2 := if sur ≠ [] then { p1 with surname := some sur } else p1
    { entry with mainPerson := p2 }

/-- The six kinship patterns of `extract_family_from_text` (lines 279-286):
kinship word of the pattern, mapped relation type, recorded relationship. -/
def family_patterns : List (GStr × GStr × GStr) :=
  [(("მეუღლესა").data, ("wife").data, ("მეუღლესა").data),
   (("მეუღლისა").data, ("wife").data, ("მეუღლისა").data),
   (("შვილი").data, ("son").data, ("შვილი").data),
   (("ასული").data, ("daughter").data, ("ასული").data),
   (("ძმასა").data, ("brother").data, ("ძმასა").data),
   (("დასა").data, ("sister").data, ("დასა").data)]

/-- One family-member candidate record. -/
def mkFamilyMember (name ty rel : GStr) : Person :=
  { name := some name, type := some ty, relationship := some rel }

/-- Processing of one kinship pattern's matches by
`extract_family_from_text`: captures equal to the main name are skipped,
son/daughter captures that satisfy the patronymic test are skipped, all
other captures are appended as family members. -/
def familyStep (ty rel : GStr) (acc : Entry) (name : GStr) : Entry :=
  if name ≠ [] && acc.mainPerson.name != some name then
    if is_patronymic name && (ty == ("son").data || ty == ("daughter").data) then acc
    else { acc with familyMembers := acc.familyMembers ++ [mkFamilyMember name ty rel] }
  else acc

/-- `extract_family_from_text` (lines 277-302). -/
def extract_family_from_text (text : GStr) (entry : Entry) : Entry :=
  family_patterns.foldl
    (fun acc pr => (findKinship pr.1 text).foldl (familyStep pr.2.1 pr.2.2) acc)
    entry

/-- The small curated place list scanned directly against the text by
`extract_places_from_text` (line 359). -/
def known_places_text : List GStr :=
  [("მცხეთა").data, ("თბილისი").data, ("ქუთაისი").data, ("ტბეთი").data]

/-- Appending a place and, when the main person has no place yet, filling
`mainPerson.place` — the shared body of both loops of
`extract_places_from_text` and of `parse_places`. -/
def addPlace (acc : Entry) (place : GStr) : Entry :=
  if !optTruthy acc.mainPerson.place then
    { acc with places := acc.places ++ [place],
               mainPerson := { acc.mainPerson with place := some place } }
  else { acc with places := acc.places ++ [place] }

/-- `extract_places_from_text` (lines 344-364): markup-captured places
filtered through `is_actual_place` and appended unconditionally, then the
curated places present in the text appended if not already recorded. -/
def extract_places_from_text (text : GStr) (entry : Entry) : Entry :=
  let e1 := (findPlaceTags text).foldl
    (fun acc place => if is_actual_place place then addPlace acc place else acc)
    entry
  known_places_text.foldl
    (fun acc place =>
      if occursIn place text && !decide (place ∈ acc.places) then addPlace acc place
      else acc)
    e1

/-- `extract_manuscript_from_text` (lines 304-315, re-defined identically
at 388-399): first folio and first line references. -/
def extract_manuscript_from_text (text : GStr) (entry : Entry) : Entry :=
  let e1 := match searchFolio text with
    | some cap =>
      { entry with manuscript := { entry.manuscript with page := some cap, folio := some cap } }
    | none => entry
  match searchLine text with
  | some cap => { e1 with manuscript := { e1.manuscript with line := some cap } }
  | none => e1

/-- Body of `parse_entry_from_text` (lines 159-192); every operation in it
is total, so the surrounding `try`/`except` never fires.  `prevEntries` is
`len(self.entries)` at call time. -/
def parse_entry_from_text_body (content entry_num : GStr) (prevEntries : Nat) : Entry :=
  let entryNumber := if isDigits entry_num then natOfDigits entry_num else prevEntries + 1
  let e0 : Entry := { entryId := ("entry_").data ++ zeroPad3 entryNumber,
                      entryNumber := entryNumber,
                      notes := clean_text content }
  let e1 := extract_main_person_from_text content e0
  let e2 := extract_family_from_text content e1
  let e3 := extract_places_from_text content e2
  extract_manuscript_from_text content e3

/-- `parse_entry_from_text` (lines 159-192), with its `try`/`except`. -/
def parse_entry_from_text (content entry_num : GStr) (prevEntries : Nat) : Option Entry :=
  some (parse_entry_from_text_body content entry_num prevEntries)

/-! ## Structured-markup extractor -/

/-- Loop of `parse_persons` (lines 401-417) with its running index: the
first element or any element typed `main` overwrites `mainPerson`, all
others are appended to `familyMembers`. -/
def parsePersonsGo : Nat → List XmlElem → Entry → Entry
  | _, [], e => e
  | i, p :: ps, e =>
    let ptype := (p.attr ("type").data).getD ("main").data
    let name_text := clean_text p.text
    let person : Person := { name := some name_text, type := some ptype,
                             occupation := some (get_occupation_from_type ptype),
                             relationship := some [] }
    if ptype == ("main").data || i == 0 then
      parsePersonsGo (i + 1) ps { e with mainPerson := person }
    else
      parsePersonsGo (i + 1) ps { e with familyMembers := e.familyMembers ++ [person] }

/-- `parse_persons` (lines 401-417). -/
def parse_persons (person_elements : List XmlElem) (entry : Entry) : Entry :=
  parsePersonsGo 0 person_elements entry

/-- `parse_places` (lines 419-426): non-empty cleaned texts are appended,
with no duplicate check. -/
def parse_places (place_elements : List XmlElem) (entry : Entry) : Entry :=
  place_elements.foldl
    (fun acc pe =>
      let place_text := clean_text pe.text
      if place_text ≠ [] then addPlace acc place_text else acc)
    entry

/-- `parse_manuscript_refs` (lines 428-441): `lb` markers with a truthy
`n` attribute set the line, `pb` markers set page and folio. -/
def parse_manuscript_refs (entry_elem : XmlElem) (entry : Entry) : Entry :=
  let e1 := (findAllTag entry_elem ("lb").data).foldl
    (fun acc lb =>
      match lb.attr ("n").data with
      | some v =>
        if v ≠ [] then { acc with manuscript := { acc.manuscript with line := some v } }
        else acc
      | none => acc)
    entry
  (findAllTag entry_elem ("pb").data).foldl
    (fun acc pb =>
      match pb.attr ("n").data with
      | some v =>
        if v ≠ [] then
          { acc with manuscript := { acc.manuscript with page := some v, folio := some v } }
        else acc
      | none => acc)
    e1

/-- Error value of the `ValueError` raised by evaluating
`f'entry_{entry_number:03d}'` with a string-valued `entry_number`. -/
def formatCodeErr : GStr :=
  ("ValueError: Unknown format code d for object of type str").data

/-- Body of `parse_entry_element` (lines 116-157) as a fallible
computation: when the element has no truthy `id` attribute the fallback
f-string applies the integer format code to the string `entry_number` and
raises; otherwise the record is assembled as in the source. -/
def parse_entry_element_body (entry_elem : XmlElem) (fallback_number : Nat) :
    Except GStr Entry :=
  let entry_number := (entry_elem.attr ("n").data).getD (natDigits fallback_number)
  match entry_elem.attr ("id").data with
  | some id_attr =>
    if id_attr ≠ [] then
      let entryNumber :=
        if isDigits entry_number then natOfDigits entry_number else fallback_number
      let e0 : Entry := { entryId := id_attr, entryNumber := entryNumber }
      let e1 := { e0 with notes := clean_text (tostringText entry_elem) }
      let e2 := parse_persons (findAllTag entry_elem ("persName").data) e1
      let e3 := parse_places (findAllTag entry_elem ("placeName").data) e2
      let e4 := parse_manuscript_refs entry_elem e3
      let e5 := if !optTruthy e4.mainPerson.name
                then extract_main_person_from_text e4.notes e4 else e4
      Except.ok e5
    else Except.error formatCodeErr
  | none => Except.error formatCodeErr

/-- `parse_entry_element` (lines 116-157): the `try`/`except` around the
body turns any raised error into a skipped entry (`None`). -/
def parse_entry_element (entry_elem : XmlElem) (fallback_number : Nat) : Option Entry :=
  (parse_entry_element_body entry_elem fallback_number).toOption

/-- The entry loop of `parse_xml_tree` (lines 73-76): entries are parsed
with their 1-based positional ordinal and the successful ones collected. -/
def processFrom : Nat → List XmlElem → List Entry
  | _, [] => []
  | k, el :: els =>
    match parse_entry_element el k with
    | some en => en :: processFrom (k + 1) els
    | none => processFrom (k + 1) els

/-! ## Aggregator and document-level driver -/

/-- The statistics accumulator initialised in `__init__` (lines 14-21). -/
structure Statistics where
  total_entries : Nat := 0
  total_persons : Nat := 0
  unique_surnames : List GStr := []
  places : List GStr := []
  occupations : List GStr := []
deriving DecidableEq

/-- Addition to a Python `set`, modelled as append-if-absent. -/
def addToSet (s : List GStr) (x : GStr) : List GStr :=
  if s.contains x then s else s ++ [x]

/-- `calculate_statistics` as Python executes it: of the two method
definitions with this name (lines 366-386 and 485-496) the later one
shadows the earlier, so the effective code is lines 485-496 — it counts
entries and persons, accumulates every entry place unfiltered and every
truthy main-person occupation, and never touches `unique_surnames`. -/
def calculate_statistics (entries : List Entry) (s0 : Statistics) : Statistics :=
  entries.foldl
    (fun st e =>
      let st1 := { st with total_persons := st.total_persons + 1 + e.familyMembers.length }
      let st2 := { st1 with places := e.places.foldl addToSet st1.places }
      if optTruthy e.mainPerson.occupation then
        { st2 with occupations := addToSet st2.occupations (e.mainPerson.occupation.getD []) }
      else st2)
    { s0 with total_entries := entries.length }

/-- The shadowed first definition of `calculate_statistics`
(lines 366-386), kept for comparison: it filters places through
`is_actual_place` and accumulates main-person surnames and patronymics
into `unique_surnames`.  Python never executes it. -/
def calculate_statistics_shadowed (entries : List Entry) (s0 : Statistics) : Statistics :=
  entries.foldl
    (fun st e =>
      let st1 := { st with total_persons := st.total_persons + 1 + e.familyMembers.length }
      let ps2 := e.places.foldl
        (fun ps p => if is_actual_place p then addToSet ps p else ps) st1.places
      let st2 := { st1 with places := ps2 }
      let st3 := if optTruthy e.mainPerson.surname then
          { st2 with unique_surnames := addToSet st2.unique_surnames (e.mainPerson.surname.getD []) }
        else st2
      let st4 := if optTruthy e.mainPerson.patronymic then
          { st3 with unique_surnames := addToSet st3.unique_surnames (e.mainPerson.patronymic.getD []) }
        else st3
      if optTruthy e.mainPerson.occupation then
        { st4 with occupations := addToSet st4.occupations (e.mainPerson.occupation.getD []) }
      else st4)
    { s0 with total_entries := entries.length }

/-- The namespaced entry tag searched by method 1 of `parse_xml_tree`. -/
def teiEntryTag : GStr := ("\x7bhttp://www.tei-c.org/ns/1.0\x7dentry").data

/-- Entry-node location of `parse_xml_tree` (lines 54-69): namespaced tag,
then bare tag, then any element with a truthy `n` attribute whose tag ends
in `entry`; the first non-empty result wins. -/
def parse_xml_tree_nodes (root : XmlElem) : List XmlElem :=
  let m1 := root.descendants.filter (fun e => e.tag == teiEntryTag)
  if !m1.isEmpty then m1
  else
    let m2 := root.descendants.filter (fun e => e.tag == ("entry").data)
    if !m2.isEmpty then m2
    else
      (root :: root.descendants).filter
        (fun e => optTruthy (e.attr ("n").data) && ("entry").data.isSuffixOf e.tag)

/-- `parse_xml_tree` (lines 50-80) on a fresh parser: locate entry nodes,
parse them positionally, and compute statistics over the survivors. -/
def parse_xml_tree (root : XmlElem) : List Entry × Statistics :=
  let es := processFrom 1 (parse_xml_tree_nodes root)
  (es, calculate_statistics es {})

/-! ## Concrete documents and inputs used in the theorems -/

/-- The eleven allow-listed names that carry no patronymic or surname
suffix (C10's list). -/
def elevenPlaces : List GStr :=
  [("მცხეთა").data, ("თბილისი").data, ("ქუთაისი").data, ("ბათუმი").data,
   ("ხანი").data, ("სამეგრელო").data, ("გურია").data, ("აჭარა").data,
   ("ტაო").data, ("ოშკი").data, ("ხახული").data]

/-- The five allow-listed names ending in the patronymic suffix `ეთი`. -/
def fiveEtiPlaces : List GStr :=
  [("სვანეთი").data, ("იმერეთი").data, ("კახეთი").data,
   ("კლარჯეთი").data, ("ტბეთი").data]

/-- The entry node of the C1 scenario: ordinal `5`, a bishop person node, a
daughter person node, a page-break marker `IIIv` — and no `id` attribute. -/
def c1Node : XmlElem :=
  .mk ("entry").data [(("n").data, ("5").data)] []
    [ .mk ("persName").data [(("type").data, ("bishop").data)] ("გიორგი").data [] [],
      .mk ("persName").data [(("type").data, ("daughter").data)] ("ნინო").data [] [],
      .mk ("pb").data [(("n").data, ("IIIv").data)] [] [] [] ]
    []

/-- The C1 scenario node with an `id` attribute added. -/
def c1NodeId : XmlElem :=
  .mk ("entry").data [(("n").data, ("5").data), (("id").data, ("e1x").data)] []
    [ .mk ("persName").data [(("type").data, ("bishop").data)] ("გიორგი").data [] [],
      .mk ("persName").data [(("type").data, ("daughter").data)] ("ნინო").data [] [],
      .mk ("pb").data [(("n").data, ("IIIv").data)] [] [] [] ]
    []

/-- An entry node with an ordinal but no `id` attribute (C9 witness). -/
def c9Node : XmlElem := .mk ("entry").data [(("n").data, ("7").data)] [] [] []

/-- An entry node without `id` whose parse raises (C8 witness). -/
def c8BadNode : XmlElem := .mk ("entry").data [(("n").data, ("9").data)] [] [] []

/-- A well-formed entry node that parses successfully (C8 witness). -/
def c8GoodNode : XmlElem :=
  .mk ("entry").data [(("n").data, ("2").data), (("id").data, ("e2").data)]
    ("აბა").data [] []

/-- Entry node of the C2 document: a main person with a surname is
recovered from its text. -/
def c2EntryNode : XmlElem :=
  .mk ("entry").data [(("n").data, ("1").data), (("id").data, ("e1").data)]
    ("გიორგი მცხეთელი").data [] []

/-- Document root of the C2 run. -/
def c2Root : XmlElem := .mk ("TEI").data [] [] [c2EntryNode] []

/-- C4 counterexample node: two person nodes with the same name, the first
becoming the main person and the second a daughter family member. -/
def c4Node : XmlElem :=
  .mk ("entry").data [(("n").data, ("1").data), (("id").data, ("e4").data)] []
    [ .mk ("persName").data [] ("ნინო").data [] [],
      .mk ("persName").data [(("type").data, ("daughter").data)] ("ნინო").data [] [] ]
    []

/-- C5 counterexample node: two place nodes with the same text. -/
def c5Node : XmlElem :=
  .mk ("entry").data [(("n").data, ("1").data), (("id").data, ("e5").data)] []
    [ .mk ("placeName").data [] ("მცხეთა").data [] [],
      .mk ("placeName").data [] ("მცხეთა").data [] [] ]
    []

/-- Free text of the C4 witness. -/
def c4Text : GStr := ("გიორგი ნინო მეუღლესა").data

/-- The entry produced by the free-text path on `c4Text`. -/
def c4WitnessEntry : Entry := parse_entry_from_text_body c4Text ("1").data 0

/-- Free text of the C5 witness: one embedded place-name markup fragment. -/
def c5WText : GStr := ("<placeName>მცხეთა</placeName>").data

/-- The entry produced by the free-text path on `c5WText`. -/
def c5WEntry : Entry := parse_entry_from_text_body c5WText ("1").data 0

/-- Free text of the C6 witness: a patronymic-suffixed name immediately
before the wife-genitive kinship word. -/
def c6Text : GStr := ("გიორგი აბაშიეთ მეუღლესა").data

/-- An entry whose main person is already named, for the C6 witness. -/
def c6Entry : Entry :=
  { entryId := ("e6").data, entryNumber := 1,
    mainPerson := { name := some ("გიორგი").data } }

/-- Sufficient straddle-freedom condition for `re.sub` reasoning: no
alignment of the pattern `q` that overlaps an inserted copy of `repl` can
match on the overlap.  Checked by evaluation for the concrete abbreviation
patterns. -/
def noStraddle (q repl : GStr) : Bool :=
  ((List.range q.length).all fun k =>
    decide (k = 0) || !((q.drop k).isPrefixOf repl || repl.isPrefixOf (q.drop k))) &&
  ((List.range repl.length).all fun j =>
    !(q.isPrefixOf (repl.drop j) || (repl.drop j).isPrefixOf q))

/-- Whitespace normality: no two adjacent whitespace characters. -/
def wsOk : GStr → Bool
  | [] => true
  | [_] => true
  | a :: b :: rest => !(isWs a && isWs b) && wsOk (b :: rest)

/-- Every whitespace character is a plain space. -/
def allSp (l : GStr) : Bool := l.all (fun c => !isWs c || c = ' ')

/-! ## Theorems -/

/-- C3: for every token, `is_patronymic` true implies `is_actual_place`
false — the patronymic suffix check of `is_actual_place` runs first and
rejects, so the classifier never flags a token as both. -/
theorem c3_patronymic_never_place (t : GStr) (h : is_patronymic t = true) :
    is_actual_place t = false := by
  unfold is_patronymic at h
  simp only [is_actual_place, h, if_true]

/-- C3 witness: the token `ტბეთი` is classified patronymic and is not a
place. -/
theorem c3_witness :
    is_patronymic ("ტბეთი").data = true ∧ is_actual_place ("ტბეთი").data = false :=
  ⟨by decide, c3_patronymic_never_place (("ტბეთი").data) (by decide)⟩

/-- C10: `is_actual_place` accepts exactly the eleven allow-listed names
with no patronymic or surname suffix, and each of the five allow-listed
names ending in `ეთი` is in the allow-list yet rejected, because the
patronymic-suffix check precedes the allow-list lookup. -/
theorem c10_allowlist :
    (∀ s : GStr, is_actual_place s = true ↔ s ∈ elevenPlaces) ∧
    fiveEtiPlaces.all
      (fun p => ("ეთი").data.isSuffixOf p && decide (p ∈ known_places)
                  && !is_actual_place p) = true := by
  refine ⟨fun s => ⟨fun h => ?_, fun h => ?_⟩, by decide⟩
  · have hk : s ∈ known_places := by
      by_contra hk
      unfold is_actual_place at h
      simp [hk] at h
    have hall : ∀ t ∈ known_places, is_actual_place t = true → t ∈ elevenPlaces := by
      decide
    exact hall s hk h
  · have hall : ∀ t ∈ elevenPlaces, is_actual_place t = true := by decide
    exact hall s h

/-- C9: an entry element with no `id` attribute always fails inside
`parse_entry_element` (the fallback f-string applies the integer format
code to the string-valued entry number and raises) and is dropped; hence
every entry in the output of the structured loop stems from an element
carrying an `id` attribute. -/
theorem c9_missing_id_dropped :
    (∀ (e : XmlElem) (n : Nat), e.attr ("id").data = none →
        parse_entry_element_body e n = Except.error formatCodeErr ∧
        parse_entry_element e n = none) ∧
    (∀ (nodes : List XmlElem) (k : Nat) (en : Entry),
        en ∈ processFrom k nodes → ∃ el, el ∈ nodes ∧ el.attr ("id").data ≠ none) := by
  have part1 : ∀ (e : XmlElem) (n : Nat), e.attr ("id").data = none →
      parse_entry_element_body e n = Except.error formatCodeErr := by
    intro e n h
    unfold parse_entry_element_body
    rw [h]
  refine ⟨fun e n h => ⟨part1 e n h, ?_⟩, ?_⟩
  · unfold parse_entry_element
    rw [part1 e n h]
    rfl
  · intro nodes
    induction nodes with
    | nil => intro k en h; simp [processFrom] at h
    | cons el els ih =>
      intro k en h
      by_cases hid : el.attr ("id").data = none
      · have hnone : parse_entry_element el k = none := by
          unfold parse_entry_element
          rw [part1 el k hid]
          rfl
        simp only [processFrom, hnone] at h
        obtain ⟨el', hmem, hne⟩ := ih (k + 1) en h
        exact ⟨el', List.mem_cons_of_mem _ hmem, hne⟩
      · exact ⟨el, List.mem_cons_self _ _, hid⟩

/-- C9 witness: a concrete entry element with an ordinal but no `id` is
dropped. -/
theorem c9_witness : parse_entry_element c9Node 3 = none :=
  (c9_missing_id_dropped.1 c9Node 3 rfl).2

/-- C1: the scenario node (ordinal 5, bishop `X`, daughter `Y`, page-break
`IIIv`) is dropped — not produced — whenever it carries no `id` attribute,
because the fallback `entryId` f-string raises; with an `id` attribute the
very same node yields exactly the record the claim describes. -/
theorem c1_entry_dropped_without_id :
    parse_entry_element c1Node 1 = none ∧
    (parse_entry_element c1NodeId 1).map
        (fun e => (e.entryNumber, e.mainPerson.occupation,
                   e.familyMembers.map (fun m => (m.type, m.name)),
                   e.manuscript.page))
      = some (5, some ("bishop").data,
              [(some ("daughter").data, some ("ნინო").data)],
              some ("IIIv").data) :=
  ⟨rfl, rfl⟩

/-- Splitting lemma for the entry loop: parsing a concatenation processes
the two halves with the matching positional ordinals. -/
theorem processFrom_append (xs : List XmlElem) :
    ∀ (k : Nat) (ys : List XmlElem),
      processFrom k (xs ++ ys) = processFrom k xs ++ processFrom (k + xs.length) ys := by
  induction xs with
  | nil => intro k ys; simp [processFrom]
  | cons x xs ih =>
    intro k ys
    cases hpe : parse_entry_element x k with
    | none =>
      simp only [List.cons_append, processFrom, hpe, List.append_eq]
      rw [ih (k + 1) ys, List.length_cons]
      have hlen : k + 1 + xs.length = k + (xs.length + 1) := by omega
      rw [hlen]
    | some en =>
      simp only [List.cons_append, processFrom, hpe, List.append_eq]
      rw [ih (k + 1) ys, List.length_cons]
      have hlen : k + 1 + xs.length = k + (xs.length + 1) := by omega
      rw [hlen]

/-- C8: an exception inside the parse of one entry node is caught there —
the entry is dropped — and the remaining entry nodes are still processed
at their original positional ordinals. -/
theorem c8_fault_isolation (pre : List XmlElem) (e : XmlElem) (post : List XmlElem)
    (msg : GStr) (h : parse_entry_element_body e (pre.length + 1) = Except.error msg) :
    parse_entry_element e (pre.length + 1) = none ∧
    processFrom 1 (pre ++ e :: post) =
      processFrom 1 pre ++ processFrom (pre.length + 2) post := by
  have hnone : parse_entry_element e (pre.length + 1) = none := by
    unfold parse_entry_element
    rw [h]
    rfl
  refine ⟨hnone, ?_⟩
  rw [processFrom_append pre 1 (e :: post)]
  have h1 : 1 + pre.length = pre.length + 1 := by omega
  rw [h1]
  simp only [processFrom, hnone]

/-- C8 witness: a failing node followed by a healthy one — the failing
node is skipped and the healthy one is still parsed. -/
theorem c8_witness :
    parse_entry_element_body c8BadNode 1 = Except.error formatCodeErr ∧
    processFrom 1 [c8BadNode, c8GoodNode] =
      processFrom 1 [] ++ processFrom 2 [c8GoodNode] :=
  ⟨rfl, (c8_fault_isolation [] c8BadNode [c8GoodNode] formatCodeErr rfl).2⟩

/-- C2: after a structured run whose single entry carries a main-person
surname (and patronymic), the statistics' `unique_surnames` set is empty —
Python's later duplicate definition of `calculate_statistics` (lines
485-496) shadows the earlier one (366-386) and never populates it. -/
theorem c2_unique_surnames_not_populated :
    (parse_xml_tree c2Root).1.map (fun e => (e.mainPerson.surname, e.mainPerson.patronymic))
      = [(some ("მცხეთელი").data, some ("მცხეთ").data)] ∧
    (parse_xml_tree c2Root).2.unique_surnames = [] ∧
    (calculate_statistics_shadowed (parse_xml_tree c2Root).1 {}).unique_surnames
      = [("მცხეთელი").data, ("მცხეთ").data] :=
  ⟨rfl, rfl, rfl⟩

/-- Fold-invariant helper: a property preserved by every step of a left
fold holds of the fold's result. -/
theorem foldlPreserve {α β : Type} {P : α → Prop} (f : α → β → α)
    (h : ∀ a b, P a → P (f a b)) : ∀ (l : List β) (a : α), P a → P (l.foldl f a) := by
  intro l
  induction l with
  | nil => intro a ha; exact ha
  | cons x xs ih => intro a ha; exact ih (f a x) (h a x ha)

/-- `familyStep` never changes the main person. -/
theorem familyStep_mainPerson (ty rel : GStr) (acc : Entry) (nm : GStr) :
    (familyStep ty rel acc nm).mainPerson = acc.mainPerson := by
  unfold familyStep
  split
  · split
    · rfl
    · rfl
  · rfl

/-- `familyStep` never changes the places. -/
theorem familyStep_places (ty rel : GStr) (acc : Entry) (nm : GStr) :
    (familyStep ty rel acc nm).places = acc.places := by
  unfold familyStep
  split
  · split
    · rfl
    · rfl
  · rfl

/-- `familyStep` only appends family members. -/
theorem familyStep_mem (ty rel : GStr) (acc : Entry) (nm : GStr) (m : Person)
    (h : m ∈ acc.familyMembers) : m ∈ (familyStep ty rel acc nm).familyMembers := by
  unfold familyStep
  split
  · split
    · exact h
    · exact List.mem_append_left _ h
  · exact h

/-- Every family member present after a `familyStep` whose name equals the
main person's current name was already present before: the guard
`name != mainPerson.get('name')` blocks self-references. -/
theorem familyStep_no_self (ty rel : GStr) (nm0 : Option GStr) (acc : Entry) (nm : GStr)
    (h1 : acc.mainPerson.name = nm0) (h2 : ∀ m ∈ acc.familyMembers, m.name ≠ nm0) :
    ∀ m ∈ (familyStep ty rel acc nm).familyMembers, m.name ≠ nm0 := by
  intro m hm
  unfold familyStep at hm
  split at hm
  next hcond =>
    split at hm
    · exact h2 m hm
    · rcases List.mem_append.mp hm with hmem | hmem
      · exact h2 m hmem
      · have hmeq : m = mkFamilyMember nm ty rel := List.mem_singleton.mp hmem
        subst hmeq
        have hcond' := hcond
        simp only [Bool.and_eq_true] at hcond'
        have hne : acc.mainPerson.name ≠ some nm := bne_iff_ne.mp hcond'.2
        intro hEq
        exact hne (h1.trans hEq.symm)
  next => exact h2 m hm

/-- A fold of `familyStep` never changes the main person. -/
theorem familyFold_mainPerson (ty rel : GStr) (ms : List GStr) :
    ∀ acc : Entry, (ms.foldl (familyStep ty rel) acc).mainPerson = acc.mainPerson := by
  induction ms with
  | nil => intro acc; rfl
  | cons x xs ih =>
    intro acc
    simp only [List.foldl_cons]
    rw [ih, familyStep_mainPerson]

/-- A fold of `familyStep` never changes the places. -/
theorem familyFold_places (ty rel : GStr) (ms : List GStr) :
    ∀ acc : Entry, (ms.foldl (familyStep ty rel) acc).places = acc.places := by
  induction ms with
  | nil => intro acc; rfl
  | cons x xs ih =>
    intro acc
    simp only [List.foldl_cons]
    rw [ih, familyStep_places]

/-- A fold of `familyStep` only appends family members. -/
theorem familyFold_mem (ty rel : GStr) (ms : List GStr) (m : Person) :
    ∀ acc : Entry, m ∈ acc.familyMembers →
      m ∈ (ms.foldl (familyStep ty rel) acc).familyMembers := by
  induction ms with
  | nil => intro acc h; exact h
  | cons x xs ih =>
    intro acc h
    simp only [List.foldl_cons]
    exact ih _ (familyStep_mem ty rel acc x m h)

/-- No fold of `familyStep` introduces a member named like the main
person. -/
theorem familyFold_no_self (ty rel : GStr) (nm0 : Option GStr) (ms : List GStr) :
    ∀ acc : Entry, acc.mainPerson.name = nm0 → (∀ m ∈ acc.familyMembers, m.name ≠ nm0) →
      ∀ m ∈ (ms.foldl (familyStep ty rel) acc).familyMembers, m.name ≠ nm0 := by
  induction ms with
  | nil => intro acc _ h2; exact h2
  | cons x xs ih =>
    intro acc h1 h2
    simp only [List.foldl_cons]
    exact ih (familyStep ty rel acc x)
      ((familyStep_mainPerson ty rel acc x) ▸ h1)
      (familyStep_no_self ty rel nm0 acc x h1 h2)

/-- A capture that differs from the main person's name and escapes the
son/daughter patronymic suppression is appended by the match fold. -/
theorem familyFold_adds (ty rel nm : GStr) (hne : nm ≠ [])
    (hsk : (is_patronymic nm && (ty == ("son").data || ty == ("daughter").data)) = false) :
    ∀ (ms : List GStr) (acc : Entry), nm ∈ ms → acc.mainPerson.name ≠ some nm →
      mkFamilyMember nm ty rel ∈ (ms.foldl (familyStep ty rel) acc).familyMembers := by
  intro ms
  induction ms with
  | nil => intro acc h; cases h
  | cons x xs ih =>
    intro acc hmem hmain
    simp only [List.foldl_cons]
    rcases List.mem_cons.mp hmem with heq | hmem'
    · subst heq
      have hc1 : (decide (nm ≠ []) && (acc.mainPerson.name != some nm)) = true := by
        simp only [Bool.and_eq_true]
        exact ⟨decide_eq_true hne, bne_iff_ne.mpr hmain⟩
      have hstep : mkFamilyMember nm ty rel ∈ (familyStep ty rel acc nm).familyMembers := by
        unfold familyStep
        rw [if_pos hc1, if_neg (by simp [hsk])]
        exact List.mem_append_right _ (List.mem_singleton.mpr rfl)
      exact familyFold_mem ty rel xs _ _ hstep
    · exact ih (familyStep ty rel acc x) hmem'
        (by rw [familyStep_mainPerson]; exact hmain)

/-- `extract_main_person_from_text` only touches the main person. -/
theorem extract_main_fm_places (text : GStr) (e : Entry) :
    (extract_main_person_from_text text e).familyMembers = e.familyMembers ∧
    (extract_main_person_from_text text e).places = e.places := by
  unfold extract_main_person_from_text
  cases georgianRuns text with
  | nil => exact ⟨rfl, rfl⟩
  | cons n ns => exact ⟨rfl, rfl⟩

/-- `extract_family_from_text` never changes the main person. -/
theorem extract_family_mainPerson (text : GStr) (e : Entry) :
    (extract_family_from_text text e).mainPerson = e.mainPerson := by
  unfold extract_family_from_text
  exact foldlPreserve (P := fun a => a.mainPerson = e.mainPerson)
    (fun acc pr => (findKinship pr.1 text).foldl (familyStep pr.2.1 pr.2.2) acc)
    (fun a pr hp => by dsimp only; rw [familyFold_mainPerson]; exact hp)
    family_patterns e rfl

/-- `extract_family_from_text` never changes the places. -/
theorem extract_family_places (text : GStr) (e : Entry) :
    (extract_family_from_text text e).places = e.places := by
  unfold extract_family_from_text
  exact foldlPreserve (P := fun a => a.places = e.places)
    (fun acc pr => (findKinship pr.1 text).foldl (familyStep pr.2.1 pr.2.2) acc)
    (fun a pr hp => by dsimp only; rw [familyFold_places]; exact hp)
    family_patterns e rfl

/-- When no family member carries the main person's name before
`extract_family_from_text`, none does afterwards. -/
theorem extract_family_no_self (text : GStr) (e : Entry)
    (h2 : ∀ m ∈ e.familyMembers, m.name ≠ e.mainPerson.name) :
    ∀ m ∈ (extract_family_from_text text e).familyMembers, m.name ≠ e.mainPerson.name := by
  unfold extract_family_from_text
  have := foldlPreserve
    (P := fun a => a.mainPerson.name = e.mainPerson.name ∧
        ∀ m ∈ a.familyMembers, m.name ≠ e.mainPerson.name)
    (fun acc pr => (findKinship pr.1 text).foldl (familyStep pr.2.1 pr.2.2) acc)
    (fun a pr hp => ⟨by rw [familyFold_mainPerson]; exact hp.1,
      familyFold_no_self pr.2.1 pr.2.2 e.mainPerson.name (findKinship pr.1 text) a hp.1 hp.2⟩)
    family_patterns e ⟨rfl, h2⟩
  exact this.2

/-- `addPlace` only touches the places and the main person's place. -/
theorem addPlace_fm_name (acc : Entry) (p : GStr) :
    (addPlace acc p).familyMembers = acc.familyMembers ∧
    (addPlace acc p).mainPerson.name = acc.mainPerson.name := by
  unfold addPlace
  split
  · exact ⟨rfl, rfl⟩
  · exact ⟨rfl, rfl⟩

/-- `addPlace` appends exactly its place. -/
theorem addPlace_places (acc : Entry) (p : GStr) :
    (addPlace acc p).places = acc.places ++ [p] := by
  unfold addPlace
  split
  · rfl
  · rfl

/-- `extract_places_from_text` changes neither the family members nor the
main person's name. -/
theorem extract_places_fm_name (text : GStr) (e : Entry) :
    (extract_places_from_text text e).familyMembers = e.familyMembers ∧
    (extract_places_from_text text e).mainPerson.name = e.mainPerson.name := by
  unfold extract_places_from_text
  refine foldlPreserve
    (P := fun a => a.familyMembers = e.familyMembers ∧
        a.mainPerson.name = e.mainPerson.name)
    (fun acc place =>
      if occursIn place text && !decide (place ∈ acc.places) then addPlace acc place
      else acc) ?_ _ _
    (foldlPreserve (P := fun a => a.familyMembers = e.familyMembers ∧
        a.mainPerson.name = e.mainPerson.name)
      (fun acc place => if is_actual_place place then addPlace acc place else acc)
      ?_ _ _ ⟨rfl, rfl⟩)
  · intro a b hp
    dsimp only
    split
    · exact ⟨(addPlace_fm_name a b).1.trans hp.1, (addPlace_fm_name a b).2.trans hp.2⟩
    · exact hp
  · intro a b hp
    dsimp only
    split
    · exact ⟨(addPlace_fm_name a b).1.trans hp.1, (addPlace_fm_name a b).2.trans hp.2⟩
    · exact hp

/-- `extract_manuscript_from_text` only touches the manuscript record. -/
theorem extract_manuscript_fm_name_places (text : GStr) (e : Entry) :
    (extract_manuscript_from_text text e).familyMembers = e.familyMembers ∧
    (extract_manuscript_from_text text e).mainPerson.name = e.mainPerson.name ∧
    (extract_manuscript_from_text text e).places = e.places := by
  unfold extract_manuscript_from_text
  cases searchFolio text with
  | none =>
    cases searchLine text with
    | none => exact ⟨rfl, rfl, rfl⟩
    | some c => exact ⟨rfl, rfl, rfl⟩
  | some c =>
    cases searchLine text with
    | none => exact ⟨rfl, rfl, rfl⟩
    | some c2 => exact ⟨rfl, rfl, rfl⟩

/-- C4 (amended): in the free-text extraction path the main person's name
never occurs among the family members' names — every appended family
member passed the `name != mainPerson.get('name')` guard and the main
person's name is fixed before family extraction runs.  (The structured
path does not guarantee this; see the counterexample.) -/
theorem c4_freetext_no_self_reference (content entry_num : GStr) (prev : Nat) (e : Entry)
    (h : parse_entry_from_text content entry_num prev = some e) :
    ∀ m ∈ e.familyMembers, m.name ≠ e.mainPerson.name := by
  have he : e = parse_entry_from_text_body content entry_num prev := by
    unfold parse_entry_from_text at h
    exact (Option.some.inj h).symm
  subst he
  unfold parse_entry_from_text_body
  intro m hm
  set e1 := extract_main_person_from_text content
    { entryId := ("entry_").data ++
        zeroPad3 (if isDigits entry_num then natOfDigits entry_num else prev + 1),
      entryNumber := if isDigits entry_num then natOfDigits entry_num else prev + 1,
      notes := clean_text content } with he1
  set ef := extract_family_from_text content e1 with hef
  set ep := extract_places_from_text content ef with hep
  have hfam : ∀ m' ∈ ef.familyMembers, m'.name ≠ e1.mainPerson.name := by
    apply extract_family_no_self
    intro m' hm'
    rw [(extract_main_fm_places content _).1] at hm'
    cases hm'
  have hmsname :
      (extract_manuscript_from_text content ep).mainPerson.name = e1.mainPerson.name := by
    rw [(extract_manuscript_fm_name_places content ep).2.1,
      (extract_places_fm_name content ef).2, ← extract_family_mainPerson content e1]
  have hmsfam :
      (extract_manuscript_from_text content ep).familyMembers = ef.familyMembers := by
    rw [(extract_manuscript_fm_name_places content ep).1,
      (extract_places_fm_name content ef).1]
  rw [hmsname]
  rw [hmsfam] at hm
  exact hfam m hm

/-- C4 witness: the free-text entry for a text with a wife capture has the
self-reference freedom the amended claim states. -/
theorem c4_witness :
    parse_entry_from_text c4Text ("1").data 0 = some c4WitnessEntry ∧
    c4WitnessEntry.familyMembers ≠ [] ∧
    ∀ m ∈ c4WitnessEntry.familyMembers, m.name ≠ c4WitnessEntry.mainPerson.name :=
  ⟨rfl, by decide,
    c4_freetext_no_self_reference c4Text ("1").data 0 c4WitnessEntry rfl⟩

/-- C4 counterexample: in the structured path, an entry node whose two
person nodes share one name produces an entry whose main person's name
occurs among the family members' names. -/
theorem c4_counterexample :
    (parse_entry_element c4Node 1).map
        (fun e => (e.mainPerson.name, e.familyMembers.map (fun m => m.name)))
      = some (some ("ნინო").data, [some ("ნინო").data]) := by
  decide

/-- C6: a capture immediately preceding either wife-genitive kinship word
that differs from the main person's name is appended as a `wife` family
member — the patronymic suppression applies only to son/daughter, so this
holds with no hypothesis on `is_patronymic`. -/
theorem c6_wife_not_suppressed (text : GStr) (e : Entry) (nm : GStr)
    (hne : nm ≠ []) (hmain : e.mainPerson.name ≠ some nm) :
    (nm ∈ findKinship ("მეუღლესა").data text →
      mkFamilyMember nm ("wife").data ("მეუღლესა").data
        ∈ (extract_family_from_text text e).familyMembers) ∧
    (nm ∈ findKinship ("მეუღლისა").data text →
      mkFamilyMember nm ("wife").data ("მეუღლისა").data
        ∈ (extract_family_from_text text e).familyMembers) := by
  have hsk : (is_patronymic nm
      && (("wife").data == ("son").data || ("wife").data == ("daughter").data)) = false := by
    simp
  unfold extract_family_from_text
  simp only [family_patterns, List.foldl_cons, List.foldl_nil]
  constructor
  · intro hmem
    apply familyFold_mem
    apply familyFold_mem
    apply familyFold_mem
    apply familyFold_mem
    apply familyFold_mem
    exact familyFold_adds _ _ nm hne hsk _ e hmem hmain
  · intro hmem
    apply familyFold_mem
    apply familyFold_mem
    apply familyFold_mem
    apply familyFold_mem
    apply familyFold_adds _ _ nm hne hsk _ _ hmem
    rw [familyFold_mainPerson]
    exact hmain

/-- C6 witness: the capture `აბაშიეთ` satisfies the patronymic test, yet
is appended as a wife family member. -/
theorem c6_witness :
    ("აბაშიეთ").data ∈ findKinship ("მეუღლესა").data c6Text ∧
    is_patronymic ("აბაშიეთ").data = true ∧
    mkFamilyMember ("აბაშიეთ").data ("wife").data ("მეუღლესა").data
      ∈ (extract_family_from_text c6Text c6Entry).familyMembers :=
  ⟨by decide, by decide,
    (c6_wife_not_suppressed c6Text c6Entry (("აბაშიეთ").data)
      (by decide) (by decide)).1 (by decide)⟩

/-- Phase 1 of `extract_places_from_text` appends exactly the markup
captures that pass `is_actual_place`, with no duplicate check. -/
theorem placesFoldMarkup (caps : List GStr) :
    ∀ acc : Entry,
      (caps.foldl
          (fun acc place => if is_actual_place place then addPlace acc place else acc)
          acc).places
        = acc.places ++ caps.filter is_actual_place := by
  induction caps with
  | nil => intro acc; simp
  | cons c cs ih =>
    intro acc
    simp only [List.foldl_cons, List.filter_cons]
    by_cases hc : is_actual_place c = true
    · rw [if_pos hc, if_pos hc, ih, addPlace_places]
      simp
    · rw [if_neg hc, if_neg hc, ih]

/-- Phase 2 of `extract_places_from_text` (the curated text scan) keeps a
duplicate-free place list duplicate-free: it checks membership before
appending. -/
theorem placesFoldKnown_nodup (text : GStr) (ks : List GStr) :
    ∀ acc : Entry, acc.places.Nodup →
      (ks.foldl
          (fun acc place =>
            if occursIn place text && !decide (place ∈ acc.places) then addPlace acc place
            else acc)
          acc).places.Nodup := by
  induction ks with
  | nil => intro acc h; exact h
  | cons k ks ih =>
    intro acc h
    simp only [List.foldl_cons]
    by_cases hc : (occursIn k text && !decide (k ∈ acc.places)) = true
    · rw [if_pos hc]
      apply ih
      have hc' := hc
      simp only [Bool.and_eq_true, Bool.not_eq_true', decide_eq_false_iff_not] at hc'
      rw [addPlace_places]
      simp [List.nodup_append, h, hc'.2]
    · rw [if_neg hc]
      exact ih acc h

/-- `parse_places` appends exactly the non-empty cleaned place texts, with
no duplicate check. -/
theorem parse_places_places (elems : List XmlElem) :
    ∀ acc : Entry,
      (parse_places elems acc).places
        = acc.places ++ (elems.map (fun p => clean_text p.text)).filter
            (fun s => decide (s ≠ [])) := by
  induction elems with
  | nil => intro acc; simp [parse_places]
  | cons p ps ih =>
    intro acc
    simp only [parse_places, List.foldl_cons, List.map_cons, List.filter_cons]
    have ihfold := ih
    simp only [parse_places] at ihfold
    by_cases hc : clean_text p.text ≠ []
    · rw [if_pos hc, ihfold, addPlace_places, decide_eq_true hc]
      simp
    · rw [if_neg hc, ihfold]
      have hd : decide (clean_text p.text ≠ []) = false := decide_eq_false hc
      rw [hd]
      simp

/-- `parse_persons` never changes the places. -/
theorem parsePersonsGo_places (ps : List XmlElem) :
    ∀ (i : Nat) (e : Entry), (parsePersonsGo i ps e).places = e.places := by
  induction ps with
  | nil => intro i e; rfl
  | cons p ps ih =>
    intro i e
    simp only [parsePersonsGo]
    split
    · rw [ih]
    · rw [ih]

/-- `parse_manuscript_refs` never changes the places. -/
theorem parse_manuscript_refs_places (elem : XmlElem) (e : Entry) :
    (parse_manuscript_refs elem e).places = e.places := by
  unfold parse_manuscript_refs
  refine foldlPreserve (P := fun a => a.places = e.places)
    (fun (acc : Entry) (pb : XmlElem) =>
      match pb.attr ("n").data with
      | some v =>
        if v ≠ [] then
          { acc with manuscript := { acc.manuscript with page := some v, folio := some v } }
        else acc
      | none => acc) ?_ _ _
    (foldlPreserve (P := fun a => a.places = e.places)
      (fun (acc : Entry) (lb : XmlElem) =>
        match lb.attr ("n").data with
        | some v =>
          if v ≠ [] then { acc with manuscript := { acc.manuscript with line := some v } }
          else acc
        | none => acc) ?_ _ _ rfl)
  · intro a b hp
    dsimp only
    cases b.attr ("n").data with
    | none => exact hp
    | some v => split <;> first | exact hp | (split <;> exact hp)
  · intro a b hp
    dsimp only
    cases b.attr ("n").data with
    | none => exact hp
    | some v => split <;> first | exact hp | (split <;> exact hp)

/-- `parse_persons` never changes the places. -/
theorem parse_persons_places (ps : List XmlElem) (e : Entry) :
    (parse_persons ps e).places = e.places := by
  unfold parse_persons
  exact parsePersonsGo_places ps 0 e

/-- The per-entry fallback recovery of a main person from the notes never
changes the places. -/
theorem fallback_main_places (text : GStr) (e4 : Entry) :
    (if !optTruthy e4.mainPerson.name then extract_main_person_from_text text e4
     else e4).places = e4.places := by
  split
  · exact (extract_main_fm_places _ _).2
  · rfl

/-- Places of an entry produced by the structured path: exactly the
non-empty cleaned texts of its `placeName` descendants, in order. -/
theorem parse_entry_element_ok_places (elem : XmlElem) (fb : Nat) (e : Entry)
    (h : parse_entry_element elem fb = some e) :
    e.places = ((findAllTag elem (("placeName").data)).map (fun p => clean_text p.text)).filter
        (fun s => decide (s ≠ [])) := by
  unfold parse_entry_element parse_entry_element_body at h
  cases hA : elem.attr ("id").data with
  | none =>
    simp only [hA] at h
    simp [Except.toOption] at h
  | some idv =>
    simp only [hA] at h
    by_cases hid : idv ≠ []
    · rw [if_pos hid] at h
      simp only [Except.toOption] at h
      have he := Option.some.inj h
      rw [← he]
      rw [fallback_main_places, parse_manuscript_refs_places, parse_places_places,
        parse_persons_places]
      simp
    · rw [if_neg hid] at h
      simp [Except.toOption] at h

/-- C5 (amended): only the curated known-places text scan suppresses
duplicates; markup-captured places are appended unconditionally.  Hence an
entry's places are duplicate-free provided the markup-captured places —
the `is_actual_place` survivors in the free-text path, the non-empty
cleaned `placeName` texts in the structured path — are pairwise
distinct. -/
theorem c5_nodup_amended :
    (∀ (content entry_num : GStr) (prev : Nat) (e : Entry),
        parse_entry_from_text content entry_num prev = some e →
        ((findPlaceTags content).filter is_actual_place).Nodup →
        e.places.Nodup) ∧
    (∀ (elem : XmlElem) (fb : Nat) (e : Entry),
        parse_entry_element elem fb = some e →
        (((findAllTag elem (("placeName").data)).map (fun p => clean_text p.text)).filter
            (fun s => decide (s ≠ []))).Nodup →
        e.places.Nodup) := by
  constructor
  · intro content entry_num prev e h hnd
    have he : e = parse_entry_from_text_body content entry_num prev := by
      unfold parse_entry_from_text at h
      exact (Option.some.inj h).symm
    subst he
    unfold parse_entry_from_text_body
    rw [(extract_manuscript_fm_name_places _ _).2.2]
    unfold extract_places_from_text
    apply placesFoldKnown_nodup
    rw [placesFoldMarkup, extract_family_places, (extract_main_fm_places _ _).2]
    dsimp only
    simpa using hnd
  · intro elem fb e h hnd
    rw [parse_entry_element_ok_places elem fb e h]
    exact hnd

/-- C5 witness: a free text with one markup place capture yields a
duplicate-free places list. -/
theorem c5_witness :
    parse_entry_from_text c5WText ("1").data 0 = some c5WEntry ∧
    ((findPlaceTags c5WText).filter is_actual_place).Nodup ∧
    c5WEntry.places.Nodup :=
  ⟨rfl, by decide, c5_nodup_amended.1 c5WText ("1").data 0 c5WEntry rfl (by decide)⟩

/-- C5 counterexample: in the structured path two `placeName` nodes with
one text produce an entry whose places list holds the same name twice. -/
theorem c5_counterexample :
    (parse_entry_element c5Node 1).map (fun e => e.places)
      = some [("მცხეთა").data, ("მცხეთა").data] ∧
    ¬ ([("მცხეთა").data, ("მცხეთა").data] : List GStr).Nodup :=
  ⟨by decide, by decide⟩

/-- Unfolding equation for `occursIn` at a cons cell. -/
theorem occursIn_cons (pat : GStr) (c : Char) (cs : GStr) :
    occursIn pat (c :: cs) = (pat.isPrefixOf (c :: cs) || occursIn pat cs) := rfl

/-- The empty pattern occurs in every text. -/
theorem occursIn_nil_pat (l : GStr) : occursIn [] l = true := by
  cases l with
  | nil => rfl
  | cons c cs => simp [occursIn_cons, List.isPrefixOf]

/-- A pattern that starts a text occurs in it. -/
theorem occursIn_of_pfx {pat l : GStr} (h : pat <+: l) : occursIn pat l = true := by
  cases l with
  | nil =>
    rw [List.prefix_nil] at h
    subst h
    rfl
  | cons c cs =>
    rw [occursIn_cons, List.isPrefixOf_iff_prefix.mpr h]
    rfl

/-- Occurrence propagates from the tail to the whole list. -/
theorem occursIn_tail {pat : GStr} (c : Char) {cs : GStr}
    (h : occursIn pat cs = true) : occursIn pat (c :: cs) = true := by
  rw [occursIn_cons, h, Bool.or_true]

/-- Occurrence in a dropped suffix propagates to the whole list. -/
theorem occursIn_of_drop {pat l : GStr} :
    ∀ {n : Nat}, occursIn pat (l.drop n) = true → occursIn pat l = true := by
  induction l with
  | nil =>
    intro n h
    rw [List.drop_nil] at h
    exact h
  | cons c cs ih =>
    intro n h
    cases n with
    | zero => exact h
    | succ n => exact occursIn_tail c (ih (n := n) h)

/-- Occurrence transfers along a list prefix. -/
theorem occursIn_of_pfx_mono {pat : GStr} :
    ∀ {u l : GStr}, u <+: l → occursIn pat u = true → occursIn pat l = true := by
  intro u
  induction u with
  | nil =>
    intro l _ h
    cases pat with
    | nil => exact occursIn_nil_pat l
    | cons p ps => exact absurd h (by simp [occursIn])
  | cons x xt ih =>
    intro l hu h
    cases l with
    | nil => exact absurd (List.prefix_nil.mp hu) (by simp)
    | cons y lt =>
      obtain ⟨rfl, hxt⟩ := List.cons_prefix_cons.mp hu
      rw [occursIn_cons] at h
      rcases Bool.or_eq_true _ _ ▸ h with hp | ht
      · exact occursIn_of_pfx
          ((List.isPrefixOf_iff_prefix.mp hp).trans (List.cons_prefix_cons.mpr ⟨rfl, hxt⟩))
      · exact occursIn_tail x (ih hxt ht)

/-- Any occurrence in a concatenation either starts inside the left part
or lies wholly in the right part. -/
theorem occurs_append_decomp (q : GStr) :
    ∀ (a b : GStr), occursIn q (a ++ b) = true →
      (∃ j, j < a.length ∧ q.isPrefixOf (a.drop j ++ b) = true) ∨ occursIn q b = true := by
  intro a
  induction a with
  | nil => intro b h; exact Or.inr h
  | cons x xs ih =>
    intro b h
    rw [List.cons_append, occursIn_cons] at h
    rcases Bool.or_eq_true _ _ ▸ h with hp | ht
    · exact Or.inl ⟨0, Nat.succ_pos _, by simpa using hp⟩
    · rcases ih b ht with ⟨j, hj, hpj⟩ | hb
      · exact Or.inl ⟨j + 1, by simpa using hj, by simpa using hpj⟩
      · exact Or.inr hb

/-- A prefix of a concatenation no longer than the left part is a prefix
of the left part. -/
theorem pfx_concat_short {q u v : GStr} (h : q <+: u ++ v) (hl : q.length ≤ u.length) :
    q <+: u :=
  List.prefix_of_prefix_length_le h (List.prefix_append u v) hl

/-- The left part of a concatenation is a prefix of any longer prefix of
the concatenation. -/
theorem pfx_concat_long {q u v : GStr} (h : q <+: u ++ v) (hl : u.length ≤ q.length) :
    u <+: q :=
  List.prefix_of_prefix_length_le (List.prefix_append u v) h hl

/-- Left-alignment consequences of `noStraddle`. -/
theorem noStraddle_left {q repl : GStr} (h : noStraddle q repl = true)
    {k : Nat} (hk0 : 0 < k) (hk : k < q.length) :
    ¬ ((q.drop k) <+: repl) ∧ ¬ (repl <+: (q.drop k)) := by
  have h1 := (Bool.and_eq_true _ _ ▸ h).1
  rw [List.all_eq_true] at h1
  have := h1 k (List.mem_range.mpr hk)
  rcases Bool.or_eq_true _ _ ▸ this with h0 | hgood
  · exact absurd (of_decide_eq_true h0) (by omega)
  · rw [Bool.not_eq_true', Bool.or_eq_false_iff] at hgood
    exact ⟨fun hc => by simp [List.isPrefixOf_iff_prefix.mpr hc] at hgood,
           fun hc => by simp [List.isPrefixOf_iff_prefix.mpr hc] at hgood⟩

/-- Inner-alignment consequences of `noStraddle`. -/
theorem noStraddle_inner {q repl : GStr} (h : noStraddle q repl = true)
    {j : Nat} (hj : j < repl.length) :
    ¬ (q <+: repl.drop j) ∧ ¬ ((repl.drop j) <+: q) := by
  have h2 := (Bool.and_eq_true _ _ ▸ h).2
  rw [List.all_eq_true] at h2
  have := h2 j (List.mem_range.mpr hj)
  rw [Bool.not_eq_true', Bool.or_eq_false_iff] at this
  exact ⟨fun hc => by simp [List.isPrefixOf_iff_prefix.mpr hc] at this,
         fun hc => by simp [List.isPrefixOf_iff_prefix.mpr hc] at this⟩

/-- Lifting a suffix-of-the-pattern prefix fact through one preserved
character of the scan. -/
theorem keyStep (q : GStr) (c : Char) (cs R : GStr)
    (ihB : ∀ k, 0 < k → k < q.length → (q.drop k) <+: R → (q.drop k) <+: cs) :
    ∀ k, k < q.length → (q.drop k) <+: (c :: R) → (q.drop k) <+: (c :: cs) := by
  intro k hk hp
  obtain ⟨uh, ut, hu⟩ := List.exists_cons_of_ne_nil
    (show q.drop k ≠ [] by
      intro hnil
      have hlen := congrArg List.length hnil
      simp only [List.length_drop, List.length_nil] at hlen
      omega)
  rw [hu] at hp
  obtain ⟨rfl, hut⟩ := List.cons_prefix_cons.mp hp
  have hutq : ut = q.drop (k + 1) := by
    have hdd : (q.drop k).drop 1 = q.drop (k + 1) := by
      rw [List.drop_drop]
    rw [hu] at hdd
    simpa using hdd
  by_cases hk1 : k + 1 < q.length
  · have hcs : (q.drop (k + 1)) <+: cs := ihB (k + 1) (by omega) hk1 (hutq ▸ hut)
    rw [hu]
    exact List.cons_prefix_cons.mpr ⟨rfl, hutq ▸ hcs⟩
  · have hute : ut = [] := by
      rw [hutq]
      exact List.drop_eq_nil_of_le (by omega)
    rw [hu, hute]
    exact List.cons_prefix_cons.mpr ⟨rfl, List.nil_prefix⟩

/-- A pattern-free text stays pattern-free through `re.sub` with a
straddle-free replacement; moreover any suffix of the pattern that starts
the output already started the input. -/
theorem replaceAll_keeps_free (pat repl q : GStr) (hq : q ≠ [])
    (hns : noStraddle q repl = true) :
    ∀ (fuel : Nat) (l : GStr), occursIn q l = false →
      occursIn q (replaceAllAux pat repl fuel l) = false ∧
      (∀ k, 0 < k → k < q.length →
        (q.drop k) <+: (replaceAllAux pat repl fuel l) → (q.drop k) <+: l) := by
  intro fuel
  induction fuel with
  | zero => intro l h; exact ⟨h, fun k _ _ hp => hp⟩
  | succ fuel ih =>
    intro l h
    cases l with
    | nil => exact ⟨h, fun k _ _ hp => hp⟩
    | cons c cs =>
      by_cases hcond : (pat ≠ [] && pat.isPrefixOf (c :: cs)) = true
      · have huf : replaceAllAux pat repl (fuel + 1) (c :: cs)
            = repl ++ replaceAllAux pat repl fuel ((c :: cs).drop pat.length) := by
          simp only [replaceAllAux, if_pos hcond]
        rw [huf]
        have hdrop : occursIn q ((c :: cs).drop pat.length) = false := by
          by_contra hc
          rw [Bool.not_eq_false] at hc
          rw [occursIn_of_drop hc] at h
          cases h
        obtain ⟨ihA, ihB⟩ := ih _ hdrop
        constructor
        · by_contra hocc
          rw [Bool.not_eq_false] at hocc
          rcases occurs_append_decomp q _ _ hocc with ⟨j, hj, hpj⟩ | hR
          · have hpj' := List.isPrefixOf_iff_prefix.mp hpj
            by_cases hlen : q.length ≤ (repl.drop j).length
            · exact (noStraddle_inner hns hj).1 (pfx_concat_short hpj' hlen)
            · refine (noStraddle_inner hns hj).2 (pfx_concat_long hpj' ?_)
              simp only [List.length_drop] at hlen ⊢
              omega
          · rw [ihA] at hR
            cases hR
        · intro k hk0 hk hp
          exfalso
          by_cases hlen : (q.drop k).length ≤ repl.length
          · exact (noStraddle_left hns hk0 hk).1 (pfx_concat_short hp hlen)
          · exact (noStraddle_left hns hk0 hk).2 (pfx_concat_long hp (by omega))
      · have huf : replaceAllAux pat repl (fuel + 1) (c :: cs)
            = c :: replaceAllAux pat repl fuel cs := by
          simp only [replaceAllAux, if_neg hcond]
        rw [huf]
        rw [occursIn_cons, Bool.or_eq_false_iff] at h
        obtain ⟨ihA, ihB⟩ := ih cs h.2
        have key := keyStep q c cs (replaceAllAux pat repl fuel cs) ihB
        constructor
        · rw [occursIn_cons, Bool.or_eq_false_iff]
          refine ⟨?_, ihA⟩
          by_contra hqp
          rw [Bool.not_eq_false] at hqp
          have hq0 := key 0 (List.length_pos.mpr hq)
            (by simpa using List.isPrefixOf_iff_prefix.mp hqp)
          rw [List.drop_zero] at hq0
          rw [List.isPrefixOf_iff_prefix.mpr hq0] at h
          cases h.1
        · intro k hk0 hk hp
          exact key k hk hp

/-- The output of `re.sub` never contains its own pattern when the
replacement is straddle-free and the scan has enough fuel. -/
theorem replaceAll_self_free (pat repl : GStr) (hp : pat ≠ [])
    (hns : noStraddle pat repl = true) :
    ∀ (fuel : Nat) (l : GStr), l.length ≤ fuel →
      occursIn pat (replaceAllAux pat repl fuel l) = false ∧
      (∀ k, 0 < k → k < pat.length →
        (pat.drop k) <+: (replaceAllAux pat repl fuel l) → (pat.drop k) <+: l) := by
  have hempty : occursIn pat [] = false := by
    cases pat with
    | nil => exact absurd rfl hp
    | cons a as => rfl
  intro fuel
  induction fuel with
  | zero =>
    intro l hl
    have hnil : l = [] := List.length_eq_zero.mp (Nat.le_zero.mp hl)
    subst hnil
    exact ⟨hempty, fun k _ _ hp' => hp'⟩
  | succ fuel ih =>
    intro l hl
    cases l with
    | nil => exact ⟨hempty, fun k _ _ hp' => hp'⟩
    | cons c cs =>
      by_cases hcond : (pat ≠ [] && pat.isPrefixOf (c :: cs)) = true
      · have huf : replaceAllAux pat repl (fuel + 1) (c :: cs)
            = repl ++ replaceAllAux pat repl fuel ((c :: cs).drop pat.length) := by
          simp only [replaceAllAux, if_pos hcond]
        rw [huf]
        have hdlen : ((c :: cs).drop pat.length).length ≤ fuel := by
          simp only [List.length_drop, List.length_cons] at *
          have hp1 : 1 ≤ pat.length := List.length_pos.mpr hp
          omega
        obtain ⟨ihA, ihB⟩ := ih _ hdlen
        constructor
        · by_contra hocc
          rw [Bool.not_eq_false] at hocc
          rcases occurs_append_decomp pat _ _ hocc with ⟨j, hj, hpj⟩ | hR
          · have hpj' := List.isPrefixOf_iff_prefix.mp hpj
            by_cases hlen : pat.length ≤ (repl.drop j).length
            · exact (noStraddle_inner hns hj).1 (pfx_concat_short hpj' hlen)
            · refine (noStraddle_inner hns hj).2 (pfx_concat_long hpj' ?_)
              simp only [List.length_drop] at hlen ⊢
              omega
          · rw [ihA] at hR
            cases hR
        · intro k hk0 hk hp'
          exfalso
          by_cases hlen : (pat.drop k).length ≤ repl.length
          · exact (noStraddle_left hns hk0 hk).1 (pfx_concat_short hp' hlen)
          · exact (noStraddle_left hns hk0 hk).2 (pfx_concat_long hp' (by omega))
      · have huf : replaceAllAux pat repl (fuel + 1) (c :: cs)
            = c :: replaceAllAux pat repl fuel cs := by
          simp only [replaceAllAux, if_neg hcond]
        rw [huf]
        have hcl : cs.length ≤ fuel := by
          simp only [List.length_cons] at hl
          omega
        obtain ⟨ihA, ihB⟩ := ih cs hcl
        have key := keyStep pat c cs (replaceAllAux pat repl fuel cs) ihB
        have hnp : pat.isPrefixOf (c :: cs) = false := by
          by_contra hc
          rw [Bool.not_eq_false] at hc
          exact hcond (by rw [Bool.and_eq_true]; exact ⟨decide_eq_true hp, hc⟩)
        constructor
        · rw [occursIn_cons, Bool.or_eq_false_iff]
          refine ⟨?_, ihA⟩
          by_contra hqp
          rw [Bool.not_eq_false] at hqp
          have hq0 := key 0 (List.length_pos.mpr hp)
            (by simpa using List.isPrefixOf_iff_prefix.mp hqp)
          rw [List.drop_zero] at hq0
          rw [List.isPrefixOf_iff_prefix.mpr hq0] at hnp
          cases hnp
        · intro k hk0 hk hp'
          exact key k hk hp'

/-- `re.sub` is the identity on pattern-free text. -/
theorem replaceAll_id_of_free (pat repl : GStr) :
    ∀ (fuel : Nat) (l : GStr), occursIn pat l = false →
      replaceAllAux pat repl fuel l = l := by
  intro fuel
  induction fuel with
  | zero => intro l _; rfl
  | succ fuel ih =>
    intro l h
    cases l with
    | nil => rfl
    | cons c cs =>
      rw [occursIn_cons, Bool.or_eq_false_iff] at h
      have hcond : ¬ ((pat ≠ [] && pat.isPrefixOf (c :: cs)) = true) := by
        intro hc
        rw [Bool.and_eq_true] at hc
        rw [hc.2] at h
        cases h.1
      simp only [replaceAllAux, if_neg hcond]
      rw [ih cs h.2]

/-- Tail of a whitespace-normal list is whitespace-normal. -/
theorem wsOk_tail {c : Char} {cs : GStr} (h : wsOk (c :: cs) = true) : wsOk cs = true := by
  cases cs with
  | nil => rfl
  | cons b rest =>
    rw [show wsOk (c :: b :: rest) = (!(isWs c && isWs b) && wsOk (b :: rest)) from rfl,
      Bool.and_eq_true] at h
    exact h.2

/-- Adjacent pair condition of a whitespace-normal list. -/
theorem wsOk_pair {c : Char} {cs : GStr} (h : wsOk (c :: cs) = true)
    {y : Char} (hy : cs.head? = some y) : (isWs c && isWs y) = false := by
  cases cs with
  | nil => cases hy
  | cons b rest =>
    rw [show wsOk (c :: b :: rest) = (!(isWs c && isWs b) && wsOk (b :: rest)) from rfl,
      Bool.and_eq_true, Bool.not_eq_true'] at h
    cases hy
    exact h.1

/-- Introduction form for whitespace normality at a cons cell. -/
theorem wsOk_cons {c : Char} {cs : GStr} (h1 : wsOk cs = true)
    (h2 : ∀ y, cs.head? = some y → (isWs c && isWs y) = false) :
    wsOk (c :: cs) = true := by
  cases cs with
  | nil => rfl
  | cons b rest =>
    rw [show wsOk (c :: b :: rest) = (!(isWs c && isWs b) && wsOk (b :: rest)) from rfl,
      Bool.and_eq_true, Bool.not_eq_true']
    exact ⟨h2 b rfl, h1⟩

/-- Whitespace normality is preserved by drop. -/
theorem wsOk_drop {l : GStr} (h : wsOk l = true) : ∀ n, wsOk (l.drop n) = true := by
  induction l with
  | nil => intro n; rw [List.drop_nil]; rfl
  | cons c cs ih =>
    intro n
    cases n with
    | zero => exact h
    | succ n => exact ih (wsOk_tail h) n

/-- Whitespace normality is inherited by prefixes. -/
theorem wsOk_pfx : ∀ {u l : GStr}, u <+: l → wsOk l = true → wsOk u = true := by
  intro u
  induction u with
  | nil => intro l _ _; rfl
  | cons x xt ih =>
    intro l hu hl
    cases l with
    | nil => exact absurd (List.prefix_nil.mp hu) (by simp)
    | cons y lt =>
      obtain ⟨rfl, hxt⟩ := List.cons_prefix_cons.mp hu
      refine wsOk_cons (ih hxt (wsOk_tail hl)) ?_
      intro z hz
      obtain ⟨zt, rfl⟩ := List.head?_eq_some_iff.mp hz
      cases lt with
      | nil => exact absurd (List.prefix_nil.mp hxt) (by simp)
      | cons w wt =>
        obtain ⟨rfl, -⟩ := List.cons_prefix_cons.mp hxt
        exact wsOk_pair hl rfl

/-- Whitespace normality of a concatenation from both halves and the
boundary pair. -/
theorem wsOk_append : ∀ (a b : GStr), wsOk a = true → wsOk b = true →
    (∀ x y, a.getLast? = some x → b.head? = some y → (isWs x && isWs y) = false) →
    wsOk (a ++ b) = true := by
  intro a
  induction a with
  | nil => intro b _ hb _; exact hb
  | cons x xs ih =>
    intro b ha hb hbd
    cases xs with
    | nil => exact wsOk_cons hb (fun y hy => hbd x y rfl hy)
    | cons y ys =>
      rw [List.cons_append]
      refine wsOk_cons (ih b (wsOk_tail ha) hb ?_) ?_
      · intro x' y' hx' hy'
        refine hbd x' y' ?_ hy'
        rw [List.getLast?_cons_cons]
        exact hx'
      · intro z hz
        have hzy : z = y := by
          rw [show ((y :: ys : GStr) ++ b) = y :: (ys ++ b) from rfl] at hz
          exact (Option.some.inj hz).symm
        subst hzy
        exact wsOk_pair ha rfl

/-- A list with no whitespace at all is whitespace-normal. -/
theorem wsOk_of_nonws : ∀ {l : GStr}, (∀ c ∈ l, isWs c = false) → wsOk l = true := by
  intro l
  induction l with
  | nil => intro _; rfl
  | cons c cs ih =>
    intro h
    refine wsOk_cons (ih fun c' hc' => h c' (List.mem_cons_of_mem _ hc')) ?_
    intro y _
    rw [h c (List.mem_cons_self _ _)]
    rfl

/-- Collapsing keeps a leading non-whitespace character in place. -/
theorem collapse_head_nonws {b : Char} (rest : GStr) (hb : isWs b = false) :
    ∃ t, collapseWs (b :: rest) = b :: t := by
  cases rest with
  | nil => exact ⟨[], by simp [collapseWs, hb]⟩
  | cons r rs =>
    refine ⟨collapseWs (r :: rs), ?_⟩
    rw [show collapseWs (b :: r :: rs)
        = if isWs b && isWs r then collapseWs (r :: rs)
          else (if isWs b then ' ' else b) :: collapseWs (r :: rs) from rfl]
    simp [hb]

/-- Characters of a collapsed text: spaces, or non-whitespace characters
of the input. -/
theorem collapse_mem : ∀ {l : GStr} {c : Char},
    c ∈ collapseWs l → c = ' ' ∨ (c ∈ l ∧ isWs c = false) := by
  intro l
  induction l with
  | nil => intro c h; cases h
  | cons a tail ih =>
    cases tail with
    | nil =>
      intro c h
      rw [show collapseWs [a] = if isWs a then [' '] else [a] from rfl] at h
      by_cases hwa : isWs a = true
      · rw [if_pos hwa] at h
        exact Or.inl (List.mem_singleton.mp h)
      · rw [if_neg hwa] at h
        have : c = a := List.mem_singleton.mp h
        subst this
        exact Or.inr ⟨List.mem_singleton_self _, by revert hwa; cases isWs c <;> simp⟩
    | cons b rest =>
      intro c h
      rw [show collapseWs (a :: b :: rest)
          = if isWs a && isWs b then collapseWs (b :: rest)
            else (if isWs a then ' ' else a) :: collapseWs (b :: rest) from rfl] at h
      by_cases hab : (isWs a && isWs b) = true
      · rw [if_pos hab] at h
        rcases ih h with h1 | ⟨h2, h3⟩
        · exact Or.inl h1
        · exact Or.inr ⟨List.mem_cons_of_mem _ h2, h3⟩
      · rw [if_neg hab] at h
        rcases List.mem_cons.mp h with hc | hc
        · by_cases hwa : isWs a = true
          · rw [if_pos hwa] at hc
            exact Or.inl hc
          · rw [if_neg hwa] at hc
            subst hc
            exact Or.inr ⟨List.mem_cons_self _ _, by revert hwa; cases isWs c <;> simp⟩
        · rcases ih hc with h1 | ⟨h2, h3⟩
          · exact Or.inl h1
          · exact Or.inr ⟨List.mem_cons_of_mem _ h2, h3⟩

/-- Collapsed text is whitespace-normal. -/
theorem collapse_wsOk : ∀ l : GStr, wsOk (collapseWs l) = true := by
  intro l
  induction l with
  | nil => rfl
  | cons a tail ih =>
    cases tail with
    | nil =>
      rw [show collapseWs [a] = if isWs a then [' '] else [a] from rfl]
      split <;> rfl
    | cons b rest =>
      rw [show collapseWs (a :: b :: rest)
          = if isWs a && isWs b then collapseWs (b :: rest)
            else (if isWs a then ' ' else a) :: collapseWs (b :: rest) from rfl]
      by_cases hab : (isWs a && isWs b) = true
      · rw [if_pos hab]
        exact ih
      · rw [if_neg hab]
        refine wsOk_cons ih ?_
        intro y hy
        by_cases hwa : isWs a = true
        · have hab' : (isWs a && isWs b) = false := by
            revert hab; cases (isWs a && isWs b) <;> simp
          rw [hwa, Bool.true_and] at hab'
          obtain ⟨t, ht⟩ := collapse_head_nonws rest hab'
          rw [ht] at hy
          have hyb : y = b := (Option.some.inj hy).symm
          subst hyb
          simp [hab']
        · have hwa' : isWs a = false := by revert hwa; cases isWs a <;> simp
          simp [hwa']

/-- Collapsing is the identity on whitespace-normal all-space text. -/
theorem collapse_eq_self : ∀ {l : GStr}, wsOk l = true → allSp l = true →
    collapseWs l = l := by
  intro l
  induction l with
  | nil => intro _ _; rfl
  | cons a tail ih =>
    cases tail with
    | nil =>
      intro _ hsp
      rw [show collapseWs [a] = if isWs a then [' '] else [a] from rfl]
      by_cases hwa : isWs a = true
      · have ha : a = ' ' := by
          unfold allSp at hsp
          simp only [List.all_cons, List.all_nil, Bool.and_true, Bool.or_eq_true,
            Bool.not_eq_true', hwa] at hsp
          rcases hsp with h | h
          · cases h
          · exact of_decide_eq_true h
        rw [if_pos hwa, ha]
      · rw [if_neg hwa]
    | cons b rest =>
      intro hok hsp
      have hab : (isWs a && isWs b) = false := wsOk_pair hok rfl
      rw [show collapseWs (a :: b :: rest)
          = if isWs a && isWs b then collapseWs (b :: rest)
            else (if isWs a then ' ' else a) :: collapseWs (b :: rest) from rfl,
        if_neg (by simp [hab])]
      have hsp' : allSp (b :: rest) = true := by
        unfold allSp at hsp ⊢
        simp only [List.all_cons, Bool.and_eq_true] at hsp
        exact (Bool.and_eq_true _ _ ▸ hsp).2
      rw [ih (wsOk_tail hok) hsp']
      congr 1
      by_cases hwa : isWs a = true
      · have ha : a = ' ' := by
          unfold allSp at hsp
          simp only [List.all_cons, Bool.and_eq_true, Bool.or_eq_true,
            Bool.not_eq_true', hwa] at hsp
          rcases hsp.1 with h | h
          · cases h
          · exact of_decide_eq_true h
        rw [if_pos hwa, ha]
      · rw [if_neg hwa]

/-- Characters of a substituted text come from the input or the
replacement. -/
theorem replaceAll_mem (pat repl : GStr) :
    ∀ (fuel : Nat) (l : GStr) (c : Char),
      c ∈ replaceAllAux pat repl fuel l → c ∈ l ∨ c ∈ repl := by
  intro fuel
  induction fuel with
  | zero => intro l c h; exact Or.inl h
  | succ fuel ih =>
    intro l c h
    cases l with
    | nil => cases h
    | cons x cs =>
      by_cases hcond : (pat ≠ [] && pat.isPrefixOf (x :: cs)) = true
      · rw [show replaceAllAux pat repl (fuel + 1) (x :: cs)
            = repl ++ replaceAllAux pat repl fuel ((x :: cs).drop pat.length) from by
          simp only [replaceAllAux, if_pos hcond]] at h
        rcases List.mem_append.mp h with h1 | h2
        · exact Or.inr h1
        · rcases ih _ c h2 with hl | hr
          · exact Or.inl (List.drop_subset _ _ hl)
          · exact Or.inr hr
      · rw [show replaceAllAux pat repl (fuel + 1) (x :: cs)
            = x :: replaceAllAux pat repl fuel cs from by
          simp only [replaceAllAux, if_neg hcond]] at h
        rcases List.mem_cons.mp h with hc | h2
        · exact Or.inl (hc ▸ List.mem_cons_self _ _)
        · rcases ih cs c h2 with hl | hr
          · exact Or.inl (List.mem_cons_of_mem _ hl)
          · exact Or.inr hr

/-- The head of a substituted text is the input's head or the
replacement's head. -/
theorem replaceAll_head (pat repl : GStr) (hrepl : repl ≠ []) :
    ∀ (fuel : Nat) (l : GStr),
      (replaceAllAux pat repl fuel l).head? = l.head? ∨
      (replaceAllAux pat repl fuel l).head? = repl.head? := by
  intro fuel l
  cases fuel with
  | zero => exact Or.inl rfl
  | succ fuel =>
    cases l with
    | nil => exact Or.inl rfl
    | cons x cs =>
      by_cases hcond : (pat ≠ [] && pat.isPrefixOf (x :: cs)) = true
      · rw [show replaceAllAux pat repl (fuel + 1) (x :: cs)
            = repl ++ replaceAllAux pat repl fuel ((x :: cs).drop pat.length) from by
          simp only [replaceAllAux, if_pos hcond]]
        obtain ⟨r0, rr, rfl⟩ := List.exists_cons_of_ne_nil hrepl
        exact Or.inr rfl
      · rw [show replaceAllAux pat repl (fuel + 1) (x :: cs)
            = x :: replaceAllAux pat repl fuel cs from by
          simp only [replaceAllAux, if_neg hcond]]
        exact Or.inl rfl

/-- Substitution with a non-empty all-non-whitespace replacement keeps
whitespace normality. -/
theorem replaceAll_wsOk (pat repl : GStr) (hrepl : repl ≠ [])
    (hrw : ∀ c ∈ repl, isWs c = false) :
    ∀ (fuel : Nat) (l : GStr), wsOk l = true →
      wsOk (replaceAllAux pat repl fuel l) = true := by
  intro fuel
  induction fuel with
  | zero => intro l h; exact h
  | succ fuel ih =>
    intro l h
    cases l with
    | nil => rfl
    | cons x cs =>
      by_cases hcond : (pat ≠ [] && pat.isPrefixOf (x :: cs)) = true
      · rw [show replaceAllAux pat repl (fuel + 1) (x :: cs)
            = repl ++ replaceAllAux pat repl fuel ((x :: cs).drop pat.length) from by
          simp only [replaceAllAux, if_pos hcond]]
        refine wsOk_append _ _ (wsOk_of_nonws hrw) (ih _ (wsOk_drop h _)) ?_
        intro a b ha _
        have ham : a ∈ repl := by
          obtain ⟨hne, rfl⟩ := List.mem_getLast?_eq_getLast (l := repl) (x := a) ha
          exact List.getLast_mem hne
        rw [hrw a ham]
        rfl
      · rw [show replaceAllAux pat repl (fuel + 1) (x :: cs)
            = x :: replaceAllAux pat repl fuel cs from by
          simp only [replaceAllAux, if_neg hcond]]
        refine wsOk_cons (ih cs (wsOk_tail h)) ?_
        intro y hy
        rcases replaceAll_head pat repl hrepl fuel cs with hh | hh
        · rw [hh] at hy
          exact wsOk_pair h hy
        · rw [hh] at hy
          obtain ⟨r0, rr, rfl⟩ := List.exists_cons_of_ne_nil hrepl
          have hyr : y = r0 := (Option.some.inj hy).symm
          subst hyr
          rw [hrw y (List.mem_cons_self _ _)]
          simp

/-- The head left after dropping leading whitespace is not whitespace. -/
theorem dropWhileWs_head : ∀ {l : GStr} {h : Char},
    (l.dropWhile isWs).head? = some h → isWs h = false := by
  intro l
  induction l with
  | nil => intro h hh; cases hh
  | cons c cs ih =>
    intro h hh
    rw [List.dropWhile_cons] at hh
    by_cases hc : isWs c = true
    · rw [if_pos hc] at hh
      exact ih hh
    · rw [if_neg hc] at hh
      have hhc : h = c := (Option.some.inj hh).symm
      subst hhc
      revert hc
      cases isWs h <;> simp
  
/-- Dropping trailing whitespace yields a prefix of the input. -/
theorem dropTrailing_pfx (l : GStr) : dropTrailingWs l <+: l := by
  induction l with
  | nil => exact List.nil_prefix
  | cons c cs ih =>
    simp only [dropTrailingWs]
    split
    · exact List.nil_prefix
    · exact List.cons_prefix_cons.mpr ⟨rfl, ih⟩

/-- Dropping trailing whitespace keeps the head (or empties the list). -/
theorem dropTrailing_head (l : GStr) :
    dropTrailingWs l = [] ∨ (dropTrailingWs l).head? = l.head? := by
  cases l with
  | nil => exact Or.inl rfl
  | cons c cs =>
    simp only [dropTrailingWs]
    split
    · exact Or.inl rfl
    · exact Or.inr rfl

/-- The last character left after dropping trailing whitespace is not
whitespace. -/
theorem dropTrailing_last : ∀ {l : GStr} {x : Char},
    (dropTrailingWs l).getLast? = some x → isWs x = false := by
  intro l
  induction l with
  | nil => intro x hx; cases hx
  | cons c cs ih =>
    intro x hx
    simp only [dropTrailingWs] at hx
    split at hx
    · cases hx
    · next hcond =>
      cases hr : dropTrailingWs cs with
      | nil =>
        rw [hr] at hx
        have hxc : x = c := by simpa using hx.symm
        subst hxc
        rw [Bool.and_eq_true] at hcond
        push_neg at hcond
        by_cases hre : (dropTrailingWs cs = [])
        · have := hcond (decide_eq_true hre)
          revert this
          cases isWs x <;> simp
        · exact absurd hr hre
      | cons d ds =>
        rw [hr] at hx
        rw [List.getLast?_cons_cons] at hx
        exact ih (hr ▸ hx)

/-- Dropping leading whitespace is the identity when the head is not
whitespace. -/
theorem dropWhileWs_eq_self {l : GStr} (h : ∀ y, l.head? = some y → isWs y = false) :
    l.dropWhile isWs = l := by
  cases l with
  | nil => rfl
  | cons c cs => rw [List.dropWhile_cons, if_neg (by simp [h c rfl])]

/-- Dropping trailing whitespace is the identity when the last character
is not whitespace. -/
theorem dropTrailing_eq_self : ∀ {l : GStr},
    (∀ x, l.getLast? = some x → isWs x = false) → dropTrailingWs l = l := by
  intro l
  induction l with
  | nil => intro _; rfl
  | cons c cs ih =>
    intro h
    simp only [dropTrailingWs]
    have hcl : ∀ x, cs.getLast? = some x → isWs x = false := by
      intro x hx
      apply h
      cases cs with
      | nil => cases hx
      | cons d ds =>
        rw [List.getLast?_cons_cons]
        exact hx
    have htail := ih hcl
    rw [htail]
    cases cs with
    | nil =>
      have hwc : isWs c = false := h c (by simp)
      rw [if_neg (by simp [hwc])]
    | cons d ds =>
      rw [if_neg (by simp)]

/-- Occurrence in the whitespace-stripped front propagates to the whole
list. -/
theorem occursIn_of_dropWhile {pat : GStr} :
    ∀ {l : GStr}, occursIn pat (l.dropWhile isWs) = true → occursIn pat l = true := by
  intro l
  induction l with
  | nil => intro h; exact h
  | cons c cs ih =>
    intro h
    rw [List.dropWhile_cons] at h
    by_cases hc : isWs c = true
    · rw [if_pos hc] at h
      exact occursIn_tail c (ih h)
    · rw [if_neg hc] at h
      exact h

/-- Whitespace normality survives dropping leading whitespace. -/
theorem wsOk_dropWhile : ∀ {l : GStr}, wsOk l = true → wsOk (l.dropWhile isWs) = true := by
  intro l
  induction l with
  | nil => intro h; exact h
  | cons c cs ih =>
    intro h
    rw [List.dropWhile_cons]
    by_cases hc : isWs c = true
    · rw [if_pos hc]
      exact ih (wsOk_tail h)
    · rw [if_neg hc]
      exact h

/-- Membership in the whitespace-stripped front. -/
theorem mem_dropWhileWs {c : Char} : ∀ {l : GStr}, c ∈ l.dropWhile isWs → c ∈ l := by
  intro l
  induction l with
  | nil => intro h; exact h
  | cons x xs ih =>
    intro h
    rw [List.dropWhile_cons] at h
    by_cases hx : isWs x = true
    · rw [if_pos hx] at h
      exact List.mem_cons_of_mem _ (ih h)
    · rw [if_neg hx] at h
      exact h

/-- The three abbreviation expansions keep the text artifact-free,
space-only-whitespace and whitespace-normal, and leave no occurrence of
any abbreviation pattern. -/
theorem expand3_normal (t2 : GStr)
    (hmem : ∀ c ∈ t2, isArtifact c = false ∧ (isWs c = false ∨ c = ' '))
    (hws : wsOk t2 = true) :
    (∀ c ∈ replaceAll abbrevPat3 abbrevRep3 (replaceAll abbrevPat2 abbrevRep2
        (replaceAll abbrevPat1 abbrevRep1 t2)),
      isArtifact c = false ∧ (isWs c = false ∨ c = ' ')) ∧
    wsOk (replaceAll abbrevPat3 abbrevRep3 (replaceAll abbrevPat2 abbrevRep2
        (replaceAll abbrevPat1 abbrevRep1 t2))) = true ∧
    occursIn abbrevPat1 (replaceAll abbrevPat3 abbrevRep3 (replaceAll abbrevPat2 abbrevRep2
        (replaceAll abbrevPat1 abbrevRep1 t2))) = false ∧
    occursIn abbrevPat2 (replaceAll abbrevPat3 abbrevRep3 (replaceAll abbrevPat2 abbrevRep2
        (replaceAll abbrevPat1 abbrevRep1 t2))) = false ∧
    occursIn abbrevPat3 (replaceAll abbrevPat3 abbrevRep3 (replaceAll abbrevPat2 abbrevRep2
        (replaceAll abbrevPat1 abbrevRep1 t2))) = false := by
  have hp1 : abbrevPat1 ≠ [] := by decide
  have hp2 : abbrevPat2 ≠ [] := by decide
  have hp3 : abbrevPat3 ≠ [] := by decide
  have hr1 : abbrevRep1 ≠ [] := by decide
  have hr2 : abbrevRep2 ≠ [] := by decide
  have hr3 : abbrevRep3 ≠ [] := by decide
  have hw1 : ∀ c ∈ abbrevRep1, isWs c = false := by decide
  have hw2 : ∀ c ∈ abbrevRep2, isWs c = false := by decide
  have hw3 : ∀ c ∈ abbrevRep3, isWs c = false := by decide
  have ha1 : ∀ c ∈ abbrevRep1, isArtifact c = false := by decide
  have ha2 : ∀ c ∈ abbrevRep2, isArtifact c = false := by decide
  have ha3 : ∀ c ∈ abbrevRep3, isArtifact c = false := by decide
  have hns11 : noStraddle abbrevPat1 abbrevRep1 = true := by decide
  have hns12 : noStraddle abbrevPat1 abbrevRep2 = true := by decide
  have hns13 : noStraddle abbrevPat1 abbrevRep3 = true := by decide
  have hns22 : noStraddle abbrevPat2 abbrevRep2 = true := by decide
  have hns23 : noStraddle abbrevPat2 abbrevRep3 = true := by decide
  have hns33 : noStraddle abbrevPat3 abbrevRep3 = true := by decide
  have hu1mem : ∀ c ∈ replaceAll abbrevPat1 abbrevRep1 t2,
      isArtifact c = false ∧ (isWs c = false ∨ c = ' ') := by
    intro c hc
    rcases replaceAll_mem _ _ _ _ _ hc with h | h
    · exact hmem c h
    · exact ⟨ha1 c h, Or.inl (hw1 c h)⟩
  have hu1ws : wsOk (replaceAll abbrevPat1 abbrevRep1 t2) = true :=
    replaceAll_wsOk _ _ hr1 hw1 _ _ hws
  have hu1p1 : occursIn abbrevPat1 (replaceAll abbrevPat1 abbrevRep1 t2) = false :=
    (replaceAll_self_free _ _ hp1 hns11 t2.length t2 le_rfl).1
  have hu2mem : ∀ c ∈ replaceAll abbrevPat2 abbrevRep2 (replaceAll abbrevPat1 abbrevRep1 t2),
      isArtifact c = false ∧ (isWs c = false ∨ c = ' ') := by
    intro c hc
    rcases replaceAll_mem _ _ _ _ _ hc with h | h
    · exact hu1mem c h
    · exact ⟨ha2 c h, Or.inl (hw2 c h)⟩
  have hu2ws : wsOk (replaceAll abbrevPat2 abbrevRep2
      (replaceAll abbrevPat1 abbrevRep1 t2)) = true :=
    replaceAll_wsOk _ _ hr2 hw2 _ _ hu1ws
  have hu2p1 : occursIn abbrevPat1 (replaceAll abbrevPat2 abbrevRep2
      (replaceAll abbrevPat1 abbrevRep1 t2)) = false :=
    (replaceAll_keeps_free _ _ _ hp1 hns12 _ _ hu1p1).1
  have hu2p2 : occursIn abbrevPat2 (replaceAll abbrevPat2 abbrevRep2
      (replaceAll abbrevPat1 abbrevRep1 t2)) = false :=
    (replaceAll_self_free _ _ hp2 hns22 _ _ le_rfl).1
  refine ⟨?_, ?_, ?_, ?_, ?_⟩
  · intro c hc
    rcases replaceAll_mem _ _ _ _ _ hc with h | h
    · exact hu2mem c h
    · exact ⟨ha3 c h, Or.inl (hw3 c h)⟩
  · exact replaceAll_wsOk _ _ hr3 hw3 _ _ hu2ws
  · exact (replaceAll_keeps_free _ _ _ hp1 hns13 _ _ hu2p1).1
  · exact (replaceAll_keeps_free _ _ _ hp2 hns23 _ _ hu2p2).1
  · exact (replaceAll_self_free _ _ hp3 hns33 _ _ le_rfl).1

/-- Stripping keeps the expansion-normal properties and pins the boundary
characters to non-whitespace. -/
theorem strip_normal (u3 : GStr)
    (hmem : ∀ c ∈ u3, isArtifact c = false ∧ (isWs c = false ∨ c = ' '))
    (hws : wsOk u3 = true)
    (h1 : occursIn abbrevPat1 u3 = false)
    (h2 : occursIn abbrevPat2 u3 = false)
    (h3 : occursIn abbrevPat3 u3 = false) :
    (∀ c ∈ stripWs u3, isArtifact c = false ∧ (isWs c = false ∨ c = ' ')) ∧
    wsOk (stripWs u3) = true ∧
    occursIn abbrevPat1 (stripWs u3) = false ∧
    occursIn abbrevPat2 (stripWs u3) = false ∧
    occursIn abbrevPat3 (stripWs u3) = false ∧
    (∀ y, (stripWs u3).head? = some y → isWs y = false) ∧
    (∀ y, (stripWs u3).getLast? = some y → isWs y = false) := by
  have hnocc : ∀ pat : GStr, occursIn pat u3 = false → occursIn pat (stripWs u3) = false := by
    intro pat hpat
    by_contra hc
    rw [Bool.not_eq_false] at hc
    rw [occursIn_of_dropWhile
      (occursIn_of_pfx_mono (dropTrailing_pfx (u3.dropWhile isWs)) hc)] at hpat
    cases hpat
  refine ⟨?_, ?_, hnocc _ h1, hnocc _ h2, hnocc _ h3, ?_, ?_⟩
  · intro c hc
    exact hmem c (mem_dropWhileWs ((dropTrailing_pfx (u3.dropWhile isWs)).subset hc))
  · exact wsOk_pfx (dropTrailing_pfx (u3.dropWhile isWs)) (wsOk_dropWhile hws)
  · intro y hy
    rcases dropTrailing_head (u3.dropWhile isWs) with hnil | hh
    · rw [show stripWs u3 = dropTrailingWs (u3.dropWhile isWs) from rfl, hnil] at hy
      cases hy
    · rw [show stripWs u3 = dropTrailingWs (u3.dropWhile isWs) from rfl, hh] at hy
      exact dropWhileWs_head hy
  · intro y hy
    exact dropTrailing_last hy

/-- Normal form of `clean_text` output: artifact-free, whitespace-normal
with only plain spaces, free of the abbreviation patterns, and stripped. -/
theorem cleanText_normal (x : GStr) :
    (∀ c ∈ clean_text x, isArtifact c = false ∧ (isWs c = false ∨ c = ' ')) ∧
    wsOk (clean_text x) = true ∧
    occursIn abbrevPat1 (clean_text x) = false ∧
    occursIn abbrevPat2 (clean_text x) = false ∧
    occursIn abbrevPat3 (clean_text x) = false ∧
    (∀ y, (clean_text x).head? = some y → isWs y = false) ∧
    (∀ y, (clean_text x).getLast? = some y → isWs y = false) := by
  by_cases hx : x = []
  · subst hx
    refine ⟨?_, ?_, ?_, ?_, ?_, ?_, ?_⟩
    · intro c hc
      cases hc
    · rfl
    · decide
    · decide
    · decide
    · intro y hy
      cases hy
    · intro y hy
      cases hy
  · have hct : clean_text x
        = stripWs (replaceAll abbrevPat3 abbrevRep3 (replaceAll abbrevPat2 abbrevRep2
            (replaceAll abbrevPat1 abbrevRep1
              (collapseWs (x.filter (fun c => !isArtifact c)))))) := by
      simp only [clean_text, if_neg hx, abbrevTable, List.foldl_cons, List.foldl_nil]
    have ht2mem : ∀ c ∈ collapseWs (x.filter (fun c => !isArtifact c)),
        isArtifact c = false ∧ (isWs c = false ∨ c = ' ') := by
      intro c hc
      rcases collapse_mem hc with rfl | ⟨hmem, hnw⟩
      · exact ⟨by decide, Or.inr rfl⟩
      · exact ⟨by simpa using (List.mem_filter.mp hmem).2, Or.inl hnw⟩
    obtain ⟨em, ews, e1, e2, e3⟩ :=
      expand3_normal (collapseWs (x.filter (fun c => !isArtifact c))) ht2mem
        (collapse_wsOk _)
    obtain ⟨sm, sws, s1, s2, s3, shd, slt⟩ :=
      strip_normal _ em ews e1 e2 e3
    rw [hct]
    exact ⟨sm, sws, s1, s2, s3, shd, slt⟩

/-- `clean_text` is the identity on its own normal forms. -/
theorem cleanText_fix (y : GStr)
    (hmem : ∀ c ∈ y, isArtifact c = false ∧ (isWs c = false ∨ c = ' '))
    (hws : wsOk y = true)
    (h1 : occursIn abbrevPat1 y = false)
    (h2 : occursIn abbrevPat2 y = false)
    (h3 : occursIn abbrevPat3 y = false)
    (hhd : ∀ c, y.head? = some c → isWs c = false)
    (hlt : ∀ c, y.getLast? = some c → isWs c = false) :
    clean_text y = y := by
  by_cases hy : y = []
  · subst hy
    rfl
  · have hfil : y.filter (fun c => !isArtifact c) = y :=
      List.filter_eq_self.mpr (fun c hc => by simp [(hmem c hc).1])
    have hsp : allSp y = true := by
      unfold allSp
      rw [List.all_eq_true]
      intro c hc
      rcases (hmem c hc).2 with h | h
      · simp [h]
      · simp [h]
    have hcol : collapseWs y = y := collapse_eq_self hws hsp
    have e1 : replaceAll abbrevPat1 abbrevRep1 y = y :=
      replaceAll_id_of_free _ _ _ _ h1
    have e2 : replaceAll abbrevPat2 abbrevRep2 y = y :=
      replaceAll_id_of_free _ _ _ _ h2
    have e3 : replaceAll abbrevPat3 abbrevRep3 y = y :=
      replaceAll_id_of_free _ _ _ _ h3
    have hstr : stripWs y = y := by
      rw [show stripWs y = dropTrailingWs (y.dropWhile isWs) from rfl,
        dropWhileWs_eq_self hhd, dropTrailing_eq_self hlt]
    simp only [clean_text, if_neg hy, abbrevTable, List.foldl_cons, List.foldl_nil]
    rw [hfil, hcol, e1, e2, e3, hstr]

/-- C7: the text normalizer is total and idempotent — `clean_text` of a
`clean_text` output is that output — and empty or null input yields the
empty string. -/
theorem c7_clean_text_idempotent_total :
    (∀ x : GStr, clean_text (clean_text x) = clean_text x) ∧
    clean_text [] = [] ∧ clean_text_opt none = [] := by
  refine ⟨?_, rfl, rfl⟩
  intro x
  obtain ⟨hmem, hws, h1, h2, h3, hhd, hlt⟩ := cleanText_normal x
  exact cleanText_fix (clean_text x) hmem hws h1 h2 h3 hhd hlt
